import Mathlib

set_option maxRecDepth 40000

/-!
Verification of the speech-analyzer extraction engine
(`analyzer/common_filter.py`, `analyzer/extractors.py`).

The Python code is shallowly embedded in Lean:

* Python strings are Lean `String`s; the Python `str` helpers used by the
  code (`lower`, `strip`, `split`, `" ".join`) are embedded as character-list
  functions (`pyLower`, `pyStrip`, `pySplit`, `joinSp`).  `lower`/`strip` are
  embedded at ASCII fidelity (`Char.toLower`, `Char.isWhitespace`), which is
  exact on every string the analyzer manipulates.
* Python `dict`/`Counter`/`defaultdict` values are embedded as association
  lists in key-insertion order (`alBump`, `alPut`, `alAddToSet`, `alGetD`),
  matching the insertion-order iteration semantics of Python dicts.  Python
  `set` values are embedded as insertion-ordered duplicate-free lists.
* Python `float` arithmetic is idealized as real arithmetic: `math.log2`,
  `math.log` become `Real.logb 2`, `Real.log`, and `round(x, 2)` becomes
  `round2` (round to nearest at two decimals; the argument is never a tie in
  any statement below).
* Python `list.sort(key=..., reverse=True)` / `Counter.most_common(n)` are
  embedded with the stable `List.mergeSort` and the corresponding
  descending-key comparator.
-/

/-! ## Embedding of the Python string helpers -/

/-- Characters dropped by Python `str.strip()` / split on by `str.split()`
(ASCII whitespace; exact on the analyzer's data). -/
def pyWs (c : Char) : Bool := c.isWhitespace

/-- `str.strip()` on the underlying character list. -/
def stripData (l : List Char) : List Char :=
  ((l.dropWhile pyWs).reverse.dropWhile pyWs).reverse

/-- Embedding of Python `s.strip()`. -/
def pyStrip (s : String) : String := ⟨stripData s.data⟩

/-- Embedding of Python `s.lower()` (ASCII case mapping). -/
def pyLower (s : String) : String := ⟨s.data.map Char.toLower⟩

/-- Worker for `str.split()`: accumulates the current word (reversed) and
splits on whitespace runs, discarding empty words. -/
def splitAux : List Char → List Char → List (List Char)
  | [], acc => if acc.isEmpty then [] else [acc.reverse]
  | c :: cs, acc =>
    if pyWs c then
      if acc.isEmpty then splitAux cs [] else acc.reverse :: splitAux cs []
    else splitAux cs (c :: acc)

/-- Embedding of Python `s.split()` (split on whitespace runs, no empties). -/
def pySplit (s : String) : List String := (splitAux s.data []).map String.mk

/-- Embedding of Python `" ".join(ws)`. -/
def joinSp : List String → String
  | [] => ""
  | [w] => w
  | w :: ws => w ++ " " ++ joinSp ws

/-! ## `analyzer/common_filter.py` -/

/-- The `COMMON_LEMMAS` frozenset literal, transcribed in source order
(duplicate literals kept; membership is unaffected). -/
def COMMON_LEMMAS : List String := [
  "go", "get", "think", "know", "say", "make", "take", "want",
  "see", "come", "use", "find", "give", "tell", "work", "call",
  "try", "ask", "need", "feel", "become", "leave", "put", "mean",
  "keep", "let", "begin", "seem", "help", "show", "hear", "play",
  "run", "move", "live", "believe", "bring", "happen", "write", "sit",
  "stand", "lose", "pay", "meet", "include", "continue", "set", "learn",
  "change", "lead", "understand", "watch", "follow", "stop", "create", "speak",
  "read", "allow", "add", "spend", "grow", "open", "walk", "win",
  "offer", "remember", "love", "consider", "appear", "buy", "wait", "serve",
  "die", "send", "expect", "build", "stay", "fall", "cut", "reach",
  "kill", "remain", "suggest", "raise", "pass", "sell", "require", "report",
  "decide", "pull", "break", "support", "hold", "turn", "start", "might",
  "must", "people", "thing", "time", "way", "year", "man", "day",
  "world", "life", "hand", "part", "child", "eye", "woman", "place",
  "work", "week", "case", "point", "government", "company", "number", "group",
  "problem", "fact", "area", "water", "room", "money", "story", "lot",
  "program", "system", "car", "night", "school", "state", "family", "president",
  "country", "body", "house", "service", "party", "head", "level", "office",
  "door", "health", "person", "art", "war", "history", "result", "morning",
  "reason", "research", "girl", "guy", "book", "end", "member", "law",
  "face", "street", "community", "name", "team", "minute", "idea", "kid",
  "back", "parent", "rest", "power", "side", "moment", "table", "teacher",
  "father", "center", "ground", "policy", "force", "music", "role", "kitchen",
  "sport", "board", "action", "interest", "effect", "class", "industry", "rate",
  "type", "process", "job", "society", "food", "director", "bill", "model",
  "project", "court", "account", "sort", "issue", "line", "form", "term",
  "right", "development", "value", "market", "report", "experience", "voice", "order",
  "bank", "tax", "education", "management", "care", "activity", "couple", "amount",
  "staff", "condition", "question", "difference", "kind", "others", "good", "new",
  "first", "last", "long", "great", "little", "own", "other", "old",
  "right", "big", "high", "different", "small", "large", "next", "early",
  "young", "important", "few", "public", "bad", "same", "able", "real",
  "sure", "clear", "possible", "whole", "certain", "likely", "social", "political",
  "national", "economic", "general", "local", "international", "special", "hard", "fine",
  "simple", "single", "free", "full", "best", "true", "easy", "strong",
  "available", "recent", "particular", "common", "personal", "open", "major", "natural",
  "significant", "serious", "ready", "necessary", "main", "basic", "central", "current",
  "total", "private", "wrong", "happy", "successful", "effective", "traditional", "medical",
  "final", "positive", "physical", "financial", "environmental", "popular", "nice", "pretty",
  "really", "quite", "actually", "probably", "maybe", "already", "always", "often",
  "sometimes", "usually", "almost", "especially", "rather", "exactly", "certainly", "obviously",
  "basically", "literally", "on", "in", "out", "up", "down", "off",
  "over", "about", "around", "through", "back", "away", "to", "for",
  "with", "at", "by", "from", "of", "as"]

/-- The `MODERATE_LEMMAS` frozenset literal, transcribed in source order. -/
def MODERATE_LEMMAS : List String := [
  "agree", "allow", "answer", "apply", "argue", "arrive", "assume", "avoid",
  "base", "beat", "benefit", "claim", "close", "compare", "concern", "consider",
  "contact", "contain", "cover", "deal", "demand", "depend", "describe", "design",
  "determine", "develop", "discuss", "draw", "drive", "eat", "encourage", "enjoy",
  "enter", "exist", "express", "fail", "fill", "fit", "focus", "force",
  "forget", "form", "gain", "guess", "handle", "hang", "hope", "identify",
  "imagine", "improve", "increase", "indicate", "involve", "join", "judge", "lack",
  "limit", "list", "manage", "mark", "matter", "mind", "note", "notice",
  "obtain", "occur", "own", "perform", "pick", "plan", "prepare", "present",
  "prevent", "produce", "prove", "provide", "publish", "pull", "push", "raise",
  "realize", "receive", "recognize", "reduce", "refer", "reflect", "refuse", "regard",
  "relate", "release", "remain", "remove", "replace", "represent", "request", "require",
  "respond", "result", "return", "reveal", "review", "rule", "share", "sign",
  "solve", "sound", "speak", "spread", "stand", "stick", "study", "succeed",
  "suffer", "supply", "suppose", "train", "treat", "trust", "visit", "vote",
  "wish", "accept", "account", "address", "affect", "afford", "aim", "announce",
  "apologize", "approve", "attend", "attract", "average", "award", "balance", "band",
  "basis", "battle", "behavior", "belief", "birth", "bit", "block", "border",
  "brain", "branch", "budget", "burn", "bus", "cabinet", "camp", "campaign",
  "capital", "capture", "cell", "chain", "challenge", "channel", "chapter", "charge",
  "choice", "claim", "client", "club", "column", "comment", "commission", "competition",
  "complaint", "complex", "concept", "conclusion", "confidence", "connection", "consequence", "construction",
  "contact", "context", "contract", "contrast", "contribution", "conversation", "cookie", "copy",
  "cost", "count", "country", "course", "culture", "curve", "data", "date",
  "debate", "decision", "definition", "demand", "design", "desire", "detail", "difficulty",
  "discussion", "distance", "district", "document", "dream", "duty", "economy", "editor",
  "effect", "effort", "element", "emotion", "emphasis", "employee", "employer", "energy",
  "engine", "entry", "environment", "episode", "event", "evidence", "example", "exchange",
  "exercise", "expansion", "experience", "expert", "expression", "extent", "factor", "failure",
  "feature", "field", "figure", "film", "finger", "flight", "focus", "frame",
  "freedom", "friend", "front", "function", "fund", "future", "game", "gap",
  "generation", "glass", "goal", "god", "growth", "guide", "habit", "half",
  "impact", "importance", "impression", "improvement", "incident", "income", "increase", "industry",
  "influence", "information", "injury", "instance", "instruction", "insurance", "intelligence", "intention",
  "interview", "introduction", "item", "job", "key", "knowledge", "lab", "lack",
  "land", "language", "layer", "leader", "length", "level", "limit", "link",
  "list", "loss", "machine", "magazine", "majority", "manner", "map", "mass",
  "material", "meaning", "measure", "media", "medium", "method", "middle", "mind",
  "minority", "minute", "mix", "mode", "model", "moment", "month", "mouth",
  "movement", "nature", "network", "news", "noise", "note", "notice", "object",
  "opportunity", "option", "order", "organization", "output", "owner", "page", "pain",
  "painting", "pair", "panel", "paper", "parent", "part", "participant", "partner",
  "path", "patient", "pattern", "payment", "peace", "period", "piece", "plan",
  "plane", "plant", "plate", "player", "pleasure", "point", "policy", "position",
  "practice", "pressure", "price", "priority", "prize", "problem", "procedure", "process",
  "product", "profit", "program", "progress", "project", "promise", "proof", "property",
  "proposal", "protection", "purpose", "quality", "quantity", "quarter", "question", "range",
  "rate", "ratio", "reason", "record", "region", "relation", "relationship", "reply",
  "report", "request", "response", "responsibility", "return", "review", "risk", "role",
  "room", "rule", "safety", "sample", "scale", "scene", "schedule", "scheme",
  "scope", "score", "screen", "section", "sector", "sense", "series", "service",
  "session", "setting", "share", "shift", "shock", "side", "sign", "signal",
  "skill", "solution", "source", "space", "stage", "standard", "start", "state",
  "statement", "step", "stock", "store", "story", "strategy", "stress", "structure",
  "study", "style", "subject", "success", "survey", "system", "target", "task",
  "taste", "technology", "temperature", "term", "theme", "thing", "thought", "tip",
  "title", "tool", "topic", "town", "trade", "tradition", "train", "transfer",
  "transition", "truth", "turn", "type", "unit", "user", "value", "version",
  "video", "view", "village", "voice", "vote", "war", "way", "weight",
  "whole", "wife", "wind", "wing", "winner", "witness", "worker", "works",
  "writer", "year"]

/-- `is_common_lemma(lemma)`: falsy input is common; otherwise membership of
`lemma.lower().strip()` in `COMMON_LEMMAS`. -/
def is_common_lemma (lemma' : String) : Bool :=
  if lemma' = "" then true
  else decide (pyStrip (pyLower lemma') ∈ COMMON_LEMMAS)

/-- `phrase_has_distinctive_word(phrase)`: true iff some word of the phrase is
outside `COMMON_LEMMAS` (words stripped and lowercased first). -/
def phrase_has_distinctive_word (phrase : String) : Bool :=
  if phrase = "" ∨ pyStrip phrase = "" then false
  else
    (((pySplit phrase).filter (fun w => pyStrip w ≠ "")).map
        (fun w => pyLower (pyStrip w))).any
      (fun w => decide (w ∉ COMMON_LEMMAS))

/-- `head_lemma_is_common(pattern)`: true iff the first word of the stripped
pattern (lowercased) is in `COMMON_LEMMAS`; degenerate input counts as common. -/
def head_lemma_is_common (pattern : String) : Bool :=
  if pattern = "" ∨ pyStrip pattern = "" then true
  else decide (pyLower (((pySplit (pyStrip pattern)).headD "")) ∈ COMMON_LEMMAS)

/-- `rarity_tier(lemma)`: 0 for falsy input, else 0/1/2 by membership of
`lemma.lower().strip()` in the common/moderate sets. -/
def rarity_tier (lemma' : String) : ℕ :=
  if lemma' = "" then 0
  else
    let w := pyStrip (pyLower lemma')
    if w ∈ COMMON_LEMMAS then 0
    else if w ∈ MODERATE_LEMMAS then 1
    else 2

/-! ## Insertion-ordered association lists (embedding of Python dicts) -/

/-- Lookup in an insertion-ordered association list (Python `d.get(k)`). -/
def alGet {β : Type} : List (String × β) → String → Option β
  | [], _ => none
  | (k', v) :: rest, k => if k' = k then some v else alGet rest k

/-- Lookup with default (Python `d.get(k, dflt)`). -/
def alGetD {β : Type} (l : List (String × β)) (k : String) (dflt : β) : β :=
  (alGet l k).getD dflt

/-- The keys of an association list, in insertion order. -/
def alKeys {β : Type} (l : List (String × β)) : List String := l.map (·.1)

/-- `Counter`-style increment: bump an existing key in place, or append the
key with count 1 (Python dicts append new keys at the end). -/
def alBump : List (String × ℕ) → String → List (String × ℕ)
  | [], k => [(k, 1)]
  | (k', c) :: rest, k =>
    if k' = k then (k', c + 1) :: rest else (k', c) :: alBump rest k

/-- Plain dict assignment `d[k] = v`: overwrite in place or append. -/
def alPut {β : Type} : List (String × β) → String → β → List (String × β)
  | [], k, v => [(k, v)]
  | (k', v') :: rest, k, v =>
    if k' = k then (k', v) :: rest else (k', v') :: alPut rest k v

/-- `defaultdict(set)` insertion `d[k].add(v)`: Python sets are embedded as
insertion-ordered duplicate-free lists. -/
def alAddToSet : List (String × List String) → String → String → List (String × List String)
  | [], k, v => [(k, [v])]
  | (k', vs) :: rest, k, v =>
    if k' = k then (k', if v ∈ vs then vs else vs ++ [v]) :: rest
    else (k', vs) :: alAddToSet rest k v

/-! ## `analyzer/extractors.py`: tokens and n-grams -/

/-- An annotated token as produced by the external annotator
(`nlp_processor.process_document`).  The unused `dep` field is omitted. -/
structure Token where
  text : String
  lemma' : String
  norm : String
  pos : String
  is_stop : Bool
deriving DecidableEq, Repr

/-- `CONTENT_POS` from `nlp_processor.py`. -/
def CONTENT_POS : List String := ["NOUN", "VERB", "ADJ", "ADV"]

/-- `generate_ngrams(tokens, n, doc_id)`: all windows of length `n`, dropping
windows with stop-word fraction above 0.6 or without a content-POS token.
`stop_count / n > 0.6` is embedded exactly as the rational comparison
`5 * stop_count > 3 * n`.  A window is emitted as
(space-joined norms, doc id, space-joined texts). -/
def generate_ngrams (tokens : List Token) (n : ℕ) (doc_id : String) :
    List (String × String × String) :=
  (List.range (tokens.length + 1 - n)).filterMap (fun i =>
    let ngram := (tokens.drop i).take n
    let stop_count := (ngram.filter (·.is_stop)).length
    if 5 * stop_count > 3 * n then none
    else if ¬ ngram.any (fun t => decide (t.pos ∈ CONTENT_POS)) then none
    else some (joinSp (ngram.map (·.norm)), doc_id, joinSp (ngram.map (·.text))))

/-! ## Real-valued scoring (Python floats idealized as reals) -/

/-- Embedding of Python `round(x, 2)` (round to nearest at two decimals;
no statement below evaluates it at a tie). -/
noncomputable def round2 (x : ℝ) : ℝ := (round (x * 100) : ℤ) / 100

/-- `_pmi(phrase, phrase_count, unigram, total_tokens, n)` from
`extractors.py` (smoothed pointwise mutual information, rounded to two
decimals; 0.0 on degenerate input). -/
noncomputable def _pmi (phrase : String) (phrase_count : ℤ)
    (unigram : List (String × ℕ)) (total_tokens : ℤ) (n : ℕ) : ℝ :=
  if total_tokens ≤ 0 ∨ phrase_count ≤ 0 ∨ n < 2 then 0
  else
    let words := pySplit phrase
    if words.length ≠ n then 0
    else
      let prod := words.foldl
        (fun acc w => acc * (((alGetD unigram w 0 : ℕ) : ℝ) + 0.01)) 1
      let num := ((phrase_count : ℝ) + 0.01) * ((total_tokens : ℝ) + 0.01) ^ (n - 1)
      round2 (Real.logb 2 (num / (prod + 1e-10)))

/-- One step of `_unigram_counts_and_total`: count
`(t.get("norm") or t.get("lemma") or "").strip()` when non-blank. -/
def unigramStep (st : List (String × ℕ) × ℕ) (t : Token) : List (String × ℕ) × ℕ :=
  let norm := pyStrip (if t.norm ≠ "" then t.norm else t.lemma')
  if norm = "" then st else (alBump st.1 norm, st.2 + 1)

/-- `_unigram_counts_and_total(all_tokens)`: corpus-wide unigram counter and
total token count over normalized forms. -/
def unigram_total (all_tokens : List (String × List Token)) :
    List (String × ℕ) × ℕ :=
  all_tokens.foldl (fun st dt => dt.2.foldl unigramStep st) ([], 0)

/-! ## `extract_vocabulary` -/

/-- A vocabulary entry `{t, c, p10k, r, surfaces}`; an empty `surfaces` list
stands for the omitted optional key. -/
structure VocabEntry where
  t : String
  c : ℕ
  p10k : ℝ
  r : ℕ
  surfaces : List String

/-- One loop step of `extract_vocabulary` over state
`((counter, surfaces_by_lemma), total_tokens)`: a content-POS non-stop token
with a non-common lemma is counted and then included in the total; a
content-POS non-stop token with a COMMON lemma hits the `continue` before
`total_tokens += 1` and so is NOT included in the total; every other token
only increments the total. -/
def vocabStep (st : (List (String × ℕ) × List (String × List String)) × ℕ)
    (t : Token) : (List (String × ℕ) × List (String × List String)) × ℕ :=
  if decide (t.pos ∈ CONTENT_POS) && !t.is_stop then
    if is_common_lemma t.lemma' then st
    else ((alBump st.1.1 t.lemma', alAddToSet st.1.2 t.lemma' t.text), st.2 + 1)
  else (st.1, st.2 + 1)

/-- The vocabulary item built for one counter entry. -/
noncomputable def mkVocabEntry (smap : List (String × List String)) (total : ℕ)
    (kv : String × ℕ) : VocabEntry :=
  { t := kv.1
    c := kv.2
    p10k := round2 (((kv.2 : ℝ) / (total : ℝ)) * 10000)
    r := rarity_tier kv.1
    surfaces := (alGetD smap kv.1 []).take 30 }

/-- Comparator of `vocab.sort(key=lambda x: (-x["r"], -x["c"]))`:
stable ascending sort by `(-r, -c)`, i.e. descending by `(r, c)`. -/
def vocabLe (a b : VocabEntry) : Bool :=
  decide (b.r < a.r ∨ (b.r = a.r ∧ b.c ≤ a.c))

/-- `extract_vocabulary(tokens)`: rarity-ranked lemma frequency list,
truncated to 1000 entries.  The rate denominator is the loop's
`total_tokens` accumulator, not the input length. -/
noncomputable def extract_vocabulary (tokens : List Token) : List VocabEntry :=
  let st := tokens.foldl vocabStep (([], []), 0)
  if st.2 = 0 then []
  else ((st.1.1.map (mkVocabEntry st.1.2 st.2)).mergeSort vocabLe).take 1000

/-! ## `extract_learning_phrases` -/

/-- Accumulator state of the n-gram harvesting loop:
`phrase_count`, `phrase_docs`, `phrase_n`, `phrase_surfaces`. -/
structure LPState where
  count : List (String × ℕ)
  docs : List (String × List String)
  nmap : List (String × ℕ)
  surf : List (String × List String)

def lpInit : LPState := ⟨[], [], [], []⟩

/-- One n-gram observation `(phrase, doc, surface)` at length `n`. -/
def lpStep (n : ℕ) (st : LPState) (g : String × String × String) : LPState :=
  { count := alBump st.count g.1
    docs := alAddToSet st.docs g.1 g.2.1
    nmap := alPut st.nmap g.1 n
    surf := if pyStrip g.2.2 ≠ "" then alAddToSet st.surf g.1 g.2.2 else st.surf }

/-- Harvest one document: n-grams for n = 2..5 (`range(2, 6)`). -/
def lpDoc (st : LPState) (dt : String × List Token) : LPState :=
  (List.range' 2 4).foldl
    (fun st n => (generate_ngrams dt.2 n dt.1).foldl (lpStep n) st) st

/-- The harvesting loops of `extract_learning_phrases`, over all documents. -/
def lpState (all_tokens : List (String × List Token)) : LPState :=
  all_tokens.foldl lpDoc lpInit

/-- `min_count` threshold: 2 for a single-document corpus, else 5. -/
def lpMinCount (total_docs : ℕ) : ℕ := if total_docs = 1 then 2 else 5

/-- `min_doc_freq` threshold: 1 for a single-document corpus, else 2. -/
def lpMinDocFreq (total_docs : ℕ) : ℕ := if total_docs = 1 then 1 else 2

/-- The qualification filter of `extract_learning_phrases` (the two `continue`
guards): thresholds and distinctiveness. -/
def lpKeep (st : LPState) (total_docs : ℕ) (kv : String × ℕ) : Bool :=
  !(kv.2 < lpMinCount total_docs ∨
      (alGetD st.docs kv.1 []).length < lpMinDocFreq total_docs : Bool)
    && phrase_has_distinctive_word kv.1

/-- The qualifying `(phrase, count)` counter entries, in counter order. -/
def lpQualified (all_tokens : List (String × List Token)) (total_docs : ℕ) :
    List (String × ℕ) :=
  (lpState all_tokens).count.filter (lpKeep (lpState all_tokens) total_docs)

/-- A learning-phrase item `{t, n, c, df, s, pmi, surfaces}` (the source sets
both `"t"` and `"n"` to the phrase string). -/
structure LPhrase where
  t : String
  n : String
  c : ℕ
  df : ℕ
  s : ℝ
  pmi : ℝ
  surfaces : List String

/-- The item built for one qualifying counter entry. -/
noncomputable def mkLPhrase (st : LPState) (unigram : List (String × ℕ))
    (total_tokens : ℕ) (kv : String × ℕ) : LPhrase :=
  { t := kv.1
    n := kv.1
    c := kv.2
    df := (alGetD st.docs kv.1 []).length
    s := round2 ((kv.2 : ℝ) * Real.log (1 + ((alGetD st.docs kv.1 []).length : ℝ)))
    pmi := _pmi kv.1 (kv.2 : ℤ) unigram (total_tokens : ℤ) (alGetD st.nmap kv.1 2)
    surfaces := (alGetD st.surf kv.1 []).take 30 }

/-- Comparator of `phrases.sort(key=lambda x: (x["pmi"], x["s"]), reverse=True)`:
stable descending sort by `(pmi, s)`. -/
noncomputable def lpLe (a b : LPhrase) : Bool :=
  @decide (b.pmi < a.pmi ∨ (b.pmi = a.pmi ∧ b.s ≤ a.s)) (Classical.propDecidable _)

/-- `extract_learning_phrases(all_tokens, total_docs)`. -/
noncomputable def extract_learning_phrases
    (all_tokens : List (String × List Token)) (total_docs : ℕ) : List LPhrase :=
  let st := lpState all_tokens
  let ut := unigram_total all_tokens
  (((lpQualified all_tokens total_docs).map
      (mkLPhrase st ut.1 ut.2)).mergeSort lpLe).take 1000

/-! ## `aggregate_patterns` -/

/-- One pattern occurrence `{t, kind, surface}` emitted by
`extract_pattern_phrases`. -/
structure PatternOcc where
  t : String
  kind : String
  surface : String
deriving DecidableEq, Repr

/-- An aggregated pattern entry `{t, kind, c, df, surfaces}`; an empty
`surfaces` list stands for the omitted optional key. -/
structure PatternEntry where
  t : String
  kind : String
  c : ℕ
  df : ℕ
  surfaces : List String
deriving DecidableEq, Repr

/-- Accumulator state of `aggregate_patterns`:
`pattern_count`, `pattern_docs`, `pattern_kind`, `pattern_surfaces`. -/
structure PatState where
  count : List (String × ℕ)
  docs : List (String × List String)
  kind : List (String × String)
  surf : List (String × List String)
deriving Repr

def patInit : PatState := ⟨[], [], [], []⟩

/-- One occurrence of pattern `p` in document `docId`: bump the count, union
the document id, overwrite the kind, and record the stripped surface when
non-blank. -/
def patStep (docId : String) (st : PatState) (p : PatternOcc) : PatState :=
  { count := alBump st.count p.t
    docs := alAddToSet st.docs p.t docId
    kind := alPut st.kind p.t p.kind
    surf :=
      if pyStrip p.surface ≠ "" then alAddToSet st.surf p.t (pyStrip p.surface)
      else st.surf }

/-- The accumulation loops of `aggregate_patterns`. -/
def patState (all_patterns : List (String × List PatternOcc)) : PatState :=
  all_patterns.foldl (fun st dp => dp.2.foldl (patStep dp.1) st) patInit

/-- Comparator of `Counter.most_common`: stable descending sort by count. -/
def patCountLe (a b : String × ℕ) : Bool := decide (b.2 ≤ a.2)

/-- The entry built for one counter item surviving the head filter. -/
def mkPatternEntry (st : PatState) (kv : String × ℕ) : PatternEntry :=
  { t := kv.1
    kind := alGetD st.kind kv.1 ""
    c := kv.2
    df := (alGetD st.docs kv.1 []).length
    surfaces := (alGetD st.surf kv.1 []).take 30 }

/-- `aggregate_patterns(all_patterns)`: take the 1000 most common pattern
keys, then drop those whose head word is common. -/
def aggregate_patterns (all_patterns : List (String × List PatternOcc)) :
    List PatternEntry :=
  let st := patState all_patterns
  ((st.count.mergeSort patCountLe).take 1000).filterMap (fun kv =>
    if head_lemma_is_common kv.1 then none else some (mkPatternEntry st kv))

/-! ## Lemmas about the string helpers -/

theorem stringMk_data (s : String) : String.mk s.data = s := by
  cases s; rfl

theorem data_append (a b : String) : (a ++ b).data = a.data ++ b.data := rfl

theorem dropWhile_eq_self_of_forall {p : Char → Bool} {l : List Char}
    (h : ∀ c ∈ l, p c = false) : l.dropWhile p = l := by
  cases l with
  | nil => rfl
  | cons c cs => simp [List.dropWhile, h c (by simp)]

theorem stripData_eq_self {l : List Char} (h : ∀ c ∈ l, pyWs c = false) :
    stripData l = l := by
  unfold stripData
  rw [dropWhile_eq_self_of_forall h,
    dropWhile_eq_self_of_forall (by intro c hc; exact h c (List.mem_reverse.mp hc)),
    List.reverse_reverse]

theorem pyStrip_eq_self {s : String} (h : ∀ c ∈ s.data, pyWs c = false) :
    pyStrip s = s := by
  unfold pyStrip
  rw [stripData_eq_self h, stringMk_data]

theorem splitAux_append_word (w : List Char) (cs acc : List Char)
    (hw : ∀ c ∈ w, pyWs c = false) :
    splitAux (w ++ cs) acc = splitAux cs (w.reverse ++ acc) := by
  induction w generalizing acc with
  | nil => simp
  | cons c w ih =>
    have hc : pyWs c = false := hw c (by simp)
    have hw' : ∀ c ∈ w, pyWs c = false := fun c hc => hw c (by simp [hc])
    have h1 : splitAux ((c :: w) ++ cs) acc = splitAux (w ++ cs) (c :: acc) := by
      simp [splitAux, hc]
    rw [h1, ih _ hw']
    simp [List.reverse_cons, List.append_assoc]

theorem splitAux_ws_cons (c : Char) (cs acc : List Char) (hc : pyWs c = true)
    (hacc : acc ≠ []) :
    splitAux (c :: cs) acc = acc.reverse :: splitAux cs [] := by
  have : acc.isEmpty = false := by
    cases acc with
    | nil => exact absurd rfl hacc
    | cons a l => rfl
  simp [splitAux, hc, this]

theorem splitAux_nil_of_ne (acc : List Char) (hacc : acc ≠ []) :
    splitAux [] acc = [acc.reverse] := by
  have : acc.isEmpty = false := by
    cases acc with
    | nil => exact absurd rfl hacc
    | cons a l => rfl
  simp [splitAux, this]

/-- A word is "plain" when it is nonempty and has no whitespace characters:
exactly the shape of the words that `" ".join` / `split()` round-trip. -/
def PlainWord (w : String) : Prop := w.data ≠ [] ∧ ∀ c ∈ w.data, pyWs c = false

/-- `" ".join(ws).split() == ws` for plain words. -/
theorem pySplit_joinSp (ws : List String) (h : ∀ w ∈ ws, PlainWord w) :
    pySplit (joinSp ws) = ws := by
  induction ws with
  | nil => rfl
  | cons w ws ih =>
    obtain ⟨hne, hw⟩ := h w (by simp)
    cases ws with
    | nil =>
      have h2 := splitAux_append_word w.data [] [] hw
      rw [List.append_nil, List.append_nil] at h2
      have h1 : splitAux w.data [] = [w.data] := by
        rw [h2, splitAux_nil_of_ne _ (by simpa using hne), List.reverse_reverse]
      show (splitAux w.data []).map String.mk = [w]
      rw [h1]
      simp [stringMk_data]
    | cons w' ws' =>
      have hws : ∀ u ∈ w' :: ws', PlainWord u := fun u hu => h u (by simp [hu])
      show (splitAux (w ++ " " ++ joinSp (w' :: ws')).data []).map String.mk = _
      have hdata : (w ++ " " ++ joinSp (w' :: ws')).data
          = w.data ++ (' ' :: (joinSp (w' :: ws')).data) := by
        rw [data_append, data_append, List.append_assoc]
        have hsp : (" " : String).data = [' '] := rfl
        rw [hsp, List.singleton_append]
      rw [hdata, splitAux_append_word _ _ _ hw, List.append_nil,
        splitAux_ws_cons _ _ _ (by decide) (by simpa using hne),
        List.reverse_reverse]
      simpa using ih hws

/-- Every word of a plain-word join appears among the split words unchanged
after strip and (when the characters are unaffected by lowercasing) the whole
phrase has that word in its distinctive-word candidates. -/
theorem pyStrip_of_plain {w : String} (h : PlainWord w) : pyStrip w = w :=
  pyStrip_eq_self h.2

/-! ## Lemmas about the association lists -/

section ALemmas
variable {β : Type}

@[simp] theorem alGet_nil (k : String) : alGet ([] : List (String × β)) k = none := rfl

theorem alGet_cons (k' : String) (v : β) (l : List (String × β)) (k : String) :
    alGet ((k', v) :: l) k = if k' = k then some v else alGet l k := rfl

@[simp] theorem alKeys_nil : alKeys ([] : List (String × β)) = [] := rfl

@[simp] theorem alKeys_cons (kv : String × β) (l : List (String × β)) :
    alKeys (kv :: l) = kv.1 :: alKeys l := rfl

@[simp] theorem alGetD_nil (k : String) (d : β) :
    alGetD ([] : List (String × β)) k d = d := rfl

theorem alGetD_cons (k' : String) (v : β) (l : List (String × β)) (k : String)
    (d : β) :
    alGetD ((k', v) :: l) k d = if k' = k then v else alGetD l k d := by
  unfold alGetD
  rw [alGet_cons]
  split <;> rfl

theorem alBump_cons (k' : String) (c : ℕ) (l : List (String × ℕ)) (k : String) :
    alBump ((k', c) :: l) k =
      if k' = k then (k', c + 1) :: l else (k', c) :: alBump l k := rfl

theorem alPut_cons (k' : String) (v' : β) (l : List (String × β)) (k : String)
    (v : β) :
    alPut ((k', v') :: l) k v =
      if k' = k then (k', v) :: l else (k', v') :: alPut l k v := rfl

theorem alAddToSet_cons (k' : String) (vs : List String)
    (m : List (String × List String)) (k v : String) :
    alAddToSet ((k', vs) :: m) k v =
      if k' = k then (k', if v ∈ vs then vs else vs ++ [v]) :: m
      else (k', vs) :: alAddToSet m k v := rfl

theorem alGet_eq_none_iff (l : List (String × β)) (k : String) :
    alGet l k = none ↔ k ∉ alKeys l := by
  induction l with
  | nil => simp
  | cons kv rest ih =>
    obtain ⟨k', v⟩ := kv
    rw [alGet_cons]
    by_cases h : k' = k
    · subst h; simp
    · simp only [h, if_false, ih, alKeys_cons, List.mem_cons]
      have : ¬ k = k' := fun hh => h hh.symm
      tauto

theorem alGet_of_mem {l : List (String × β)} {k : String} {v : β}
    (hnd : (alKeys l).Nodup) (hm : (k, v) ∈ l) : alGet l k = some v := by
  induction l with
  | nil => simp at hm
  | cons kv rest ih =>
    obtain ⟨k', v'⟩ := kv
    rw [alGet_cons]
    rcases List.mem_cons.mp hm with h | h
    · obtain ⟨h1, h2⟩ := Prod.mk.injEq .. ▸ h
      simp [h1.symm, h2]
    · have hnd2 : k' ∉ alKeys rest ∧ (alKeys rest).Nodup := by simpa using hnd
      have hmem : k ∈ alKeys rest := by
        have := List.mem_map_of_mem Prod.fst h
        simpa [alKeys] using this
      have hk : ¬ k' = k := by
        rintro rfl
        exact absurd hmem hnd2.1
      simp only [hk, if_false]
      exact ih hnd2.2 h

theorem mem_of_alGet {l : List (String × β)} {k : String} {v : β}
    (h : alGet l k = some v) : (k, v) ∈ l := by
  induction l with
  | nil => simp at h
  | cons kv rest ih =>
    obtain ⟨k', v'⟩ := kv
    rw [alGet_cons] at h
    by_cases he : k' = k
    · subst he
      simp at h
      simp [h]
    · simp only [he, if_false] at h
      exact List.mem_cons_of_mem _ (ih h)

theorem alKeys_alBump (l : List (String × ℕ)) (k : String) :
    alKeys (alBump l k) = if k ∈ alKeys l then alKeys l else alKeys l ++ [k] := by
  induction l with
  | nil => simp [alBump]
  | cons kv rest ih =>
    obtain ⟨k', c⟩ := kv
    rw [alBump_cons]
    by_cases h : k' = k
    · subst h; simp
    · have h' : ¬ k = k' := fun hh => h hh.symm
      simp only [h, if_false, alKeys_cons, List.mem_cons, h', false_or, ih]
      by_cases hm : k ∈ alKeys rest <;> simp [hm]

theorem mem_alKeys_alBump (l : List (String × ℕ)) (k k' : String) :
    k' ∈ alKeys (alBump l k) ↔ k' ∈ alKeys l ∨ k' = k := by
  rw [alKeys_alBump]
  by_cases h : k ∈ alKeys l
  · simp only [h, if_true]
    constructor
    · exact Or.inl
    · rintro (hh | rfl)
      · exact hh
      · exact h
  · simp [h]

theorem alKeys_alBump_nodup {l : List (String × ℕ)} (hnd : (alKeys l).Nodup)
    (k : String) : (alKeys (alBump l k)).Nodup := by
  rw [alKeys_alBump]
  by_cases h : k ∈ alKeys l
  · simpa [h]
  · simpa [h, List.nodup_append] using hnd

theorem alGetD_alBump_self (l : List (String × ℕ)) (k : String) :
    alGetD (alBump l k) k 0 = alGetD l k 0 + 1 := by
  induction l with
  | nil => simp [alBump, alGetD_cons]
  | cons kv rest ih =>
    obtain ⟨k', c⟩ := kv
    rw [alBump_cons]
    by_cases h : k' = k
    · subst h; simp [alGetD_cons]
    · simp [alGetD_cons, h, ih]

theorem alGet_alBump_ne (l : List (String × ℕ)) {k k' : String} (h : k' ≠ k) :
    alGet (alBump l k') k = alGet l k := by
  induction l with
  | nil => simp [alBump, alGet_cons, h]
  | cons kv rest ih =>
    obtain ⟨k'', c⟩ := kv
    rw [alBump_cons]
    by_cases h2 : k'' = k'
    · subst h2
      rw [if_pos rfl, alGet_cons, alGet_cons]
      simp [h]
    · rw [if_neg h2, alGet_cons, alGet_cons]
      by_cases h3 : k'' = k <;> simp [h3, ih]

/-- Folding the counter over a list of keys adds, per key, its number of
occurrences in the list. -/
theorem alGetD_foldl_alBump (ks : List String) (l : List (String × ℕ))
    (k : String) :
    alGetD (ks.foldl alBump l) k 0 = alGetD l k 0 + ks.count k := by
  induction ks generalizing l with
  | nil => simp
  | cons k' ks ih =>
    rw [List.foldl_cons, ih]
    by_cases h : k' = k
    · subst h
      rw [alGetD_alBump_self, List.count_cons_self]
      omega
    · have hne : alGetD (alBump l k') k 0 = alGetD l k 0 := by
        unfold alGetD
        rw [alGet_alBump_ne _ h]
      rw [hne, List.count_cons_of_ne (fun hh => h hh.symm)]

theorem mem_alKeys_foldl_alBump (ks : List String) (l : List (String × ℕ))
    (k : String) :
    k ∈ alKeys (ks.foldl alBump l) ↔ k ∈ alKeys l ∨ k ∈ ks := by
  induction ks generalizing l with
  | nil => simp
  | cons k' ks ih =>
    rw [List.foldl_cons, ih, mem_alKeys_alBump]
    constructor
    · rintro ((h | rfl) | h)
      · exact Or.inl h
      · exact Or.inr (by simp)
      · exact Or.inr (List.mem_cons_of_mem _ h)
    · rintro (h | h)
      · exact Or.inl (Or.inl h)
      · rcases List.mem_cons.mp h with rfl | h
        · exact Or.inl (Or.inr rfl)
        · exact Or.inr h

theorem alKeys_foldl_alBump_nodup (ks : List String) {l : List (String × ℕ)}
    (hnd : (alKeys l).Nodup) : (alKeys (ks.foldl alBump l)).Nodup := by
  induction ks generalizing l with
  | nil => exact hnd
  | cons k' ks ih => exact ih (alKeys_alBump_nodup hnd k')

theorem alBump_fresh (l : List (String × ℕ)) {k : String}
    (hk : k ∉ alKeys l) : alBump l k = l ++ [(k, 1)] := by
  induction l with
  | nil => rfl
  | cons kv rest ih =>
    obtain ⟨k', c⟩ := kv
    have h : ¬ k' = k := by
      rintro rfl; exact hk (by simp)
    rw [alBump_cons]
    simp only [h, if_false, List.cons_append, List.cons.injEq, true_and]
    exact ih (fun hm => hk (by simp [hm]))

/-- Folding fresh, pairwise-distinct keys into a counter appends them in
order, each with count 1. -/
theorem foldl_alBump_fresh (ks : List String) (l : List (String × ℕ))
    (hfresh : ∀ k ∈ ks, k ∉ alKeys l) (hnd : ks.Nodup) :
    ks.foldl alBump l = l ++ ks.map (fun k => (k, 1)) := by
  induction ks generalizing l with
  | nil => simp
  | cons k ks ih =>
    have hnd2 : k ∉ ks ∧ ks.Nodup := by simpa using hnd
    have hfresh2 : ∀ k' ∈ ks, k' ∉ alKeys (l ++ [(k, 1)]) := by
      intro k' hk'
      have hne : k' ≠ k := by
        rintro rfl
        exact absurd hk' hnd2.1
      intro hmem
      rw [alKeys, List.map_append] at hmem
      rcases List.mem_append.mp hmem with h | h
      · exact hfresh k' (List.mem_cons_of_mem _ hk') h
      · simp at h
        exact hne h
    rw [List.foldl_cons, alBump_fresh l (hfresh k (by simp)),
      ih (l ++ [(k, 1)]) hfresh2 hnd2.2]
    simp

theorem alGet_alPut_self (l : List (String × β)) (k : String) (v : β) :
    alGet (alPut l k v) k = some v := by
  induction l with
  | nil => simp [alPut, alGet_cons]
  | cons kv rest ih =>
    obtain ⟨k', v'⟩ := kv
    rw [alPut_cons]
    by_cases h : k' = k
    · subst h; simp [alGet_cons]
    · simp [alGet_cons, h, ih]

theorem alGet_alPut_ne (l : List (String × β)) {k k' : String} (v : β)
    (h : k' ≠ k) : alGet (alPut l k' v) k = alGet l k := by
  induction l with
  | nil => simp [alPut, alGet_cons, h]
  | cons kv rest ih =>
    obtain ⟨k'', v'⟩ := kv
    rw [alPut_cons]
    by_cases h2 : k'' = k'
    · subst h2
      rw [if_pos rfl, alGet_cons, alGet_cons]
      simp [h]
    · rw [if_neg h2, alGet_cons, alGet_cons]
      by_cases h3 : k'' = k <;> simp [h3, ih]

theorem alGetD_alAddToSet_self (m : List (String × List String))
    (k v : String) :
    alGetD (alAddToSet m k v) k [] =
      (if v ∈ alGetD m k [] then alGetD m k [] else alGetD m k [] ++ [v]) := by
  induction m with
  | nil => simp [alAddToSet, alGetD_cons]
  | cons kv rest ih =>
    obtain ⟨k', vs⟩ := kv
    rw [alAddToSet_cons]
    by_cases h : k' = k
    · subst h; simp [alGetD_cons]
    · simp [alGetD_cons, h, ih]

theorem alGet_alAddToSet_ne (m : List (String × List String)) {k k' : String}
    (v : String) (h : k' ≠ k) : alGet (alAddToSet m k' v) k = alGet m k := by
  induction m with
  | nil => simp [alAddToSet, alGet_cons, h]
  | cons kv rest ih =>
    obtain ⟨k'', vs⟩ := kv
    rw [alAddToSet_cons]
    by_cases h2 : k'' = k'
    · subst h2
      rw [if_pos rfl, alGet_cons, alGet_cons]
      simp [h]
    · rw [if_neg h2, alGet_cons, alGet_cons]
      by_cases h3 : k'' = k <;> simp [h3, ih]

theorem alGetD_alAddToSet_ne (m : List (String × List String)) {k k' : String}
    (v : String) (h : k' ≠ k) : alGetD (alAddToSet m k' v) k [] = alGetD m k [] := by
  unfold alGetD
  rw [alGet_alAddToSet_ne _ _ h]

end ALemmas

/-! ## Sorting and truncation helpers -/

theorem mem_of_mem_mergeSort_take {α : Type} {le : α → α → Bool} {l : List α}
    {n : ℕ} {x : α} (h : x ∈ (l.mergeSort le).take n) : x ∈ l :=
  (l.mergeSort_perm le).mem_iff.mp ((List.take_sublist n _).mem h)

theorem mem_mergeSort_take_of_len {α : Type} {le : α → α → Bool} {l : List α}
    {n : ℕ} (hlen : l.length ≤ n) {x : α} (h : x ∈ l) :
    x ∈ (l.mergeSort le).take n := by
  rw [List.take_of_length_le (by rw [(l.mergeSort_perm le).length_eq]; exact hlen)]
  exact (l.mergeSort_perm le).mem_iff.mpr h

theorem two_le_count_of_pair_sublist {l : List String} {p : String}
    (h : List.Sublist [p, p] l) : 2 ≤ l.count p := by
  have := h.count_le p
  simpa using this

theorem sublist_pair_range {i j N : ℕ} (hij : i < j) (hj : j < N) :
    List.Sublist [i, j] (List.range N) := by
  have h1 : List.Sublist [i] (List.range j) :=
    List.singleton_sublist.mpr (List.mem_range.mpr hij)
  have h2 : List.Sublist [i, j] (List.range j ++ [j]) := by
    have := List.Sublist.append h1 (List.Sublist.refl [j])
    simpa using this
  rw [← List.range_succ] at h2
  exact h2.trans (List.range_sublist.mpr hj)

/-! ## Lawfulness of the sort comparators -/

theorem vocabLe_trans (a b c : VocabEntry) (h1 : vocabLe a b = true)
    (h2 : vocabLe b c = true) : vocabLe a c = true := by
  simp only [vocabLe, decide_eq_true_eq] at *
  omega

theorem vocabLe_total (a b : VocabEntry) : (vocabLe a b || vocabLe b a) = true := by
  simp only [vocabLe, Bool.or_eq_true, decide_eq_true_eq]
  omega

theorem patCountLe_trans (a b c : String × ℕ) (h1 : patCountLe a b = true)
    (h2 : patCountLe b c = true) : patCountLe a c = true := by
  simp only [patCountLe, decide_eq_true_eq] at *
  omega

theorem patCountLe_total (a b : String × ℕ) :
    (patCountLe a b || patCountLe b a) = true := by
  simp only [patCountLe, Bool.or_eq_true, decide_eq_true_eq]
  omega

theorem lpLe_trans (a b c : LPhrase) (h1 : lpLe a b = true)
    (h2 : lpLe b c = true) : lpLe a c = true := by
  simp only [lpLe, decide_eq_true_eq] at *
  rcases h1 with h1 | ⟨e1, h1⟩ <;> rcases h2 with h2 | ⟨e2, h2⟩
  · exact Or.inl (lt_trans h2 h1)
  · left
    rw [e2]
    exact h1
  · left
    rw [← e1]
    exact h2
  · exact Or.inr ⟨e2.trans e1, le_trans h2 h1⟩

theorem lpLe_total (a b : LPhrase) : (lpLe a b || lpLe b a) = true := by
  simp only [lpLe, Bool.or_eq_true, decide_eq_true_eq]
  rcases lt_trichotomy b.pmi a.pmi with h | h | h
  · exact Or.inl (Or.inl h)
  · rcases le_total b.s a.s with hs | hs
    · exact Or.inl (Or.inr ⟨h, hs⟩)
    · exact Or.inr (Or.inr ⟨h.symm, hs⟩)
  · exact Or.inr (Or.inl h)

/-! ## C6: classification of empty and blank input -/

theorem toLower_of_ws {c : Char} (h : pyWs c = true) : c.toLower = c := by
  have hc : ((c = ' ' ∨ c = '\t') ∨ c = '\x0d') ∨ c = '\n' := by
    simpa [pyWs, Char.isWhitespace] using h
  rcases hc with ((rfl | rfl) | rfl) | rfl <;> decide

theorem dropWhile_eq_nil_of_forall {p : Char → Bool} {l : List Char}
    (h : ∀ c ∈ l, p c = true) : l.dropWhile p = [] := by
  induction l with
  | nil => rfl
  | cons c cs ih =>
    rw [List.dropWhile_cons, if_pos (h c (by simp))]
    exact ih (fun c hc => h c (by simp [hc]))

/-- C6 counterexample: the claim says a whitespace-only string classifies as
common (tier 0), but `rarity_tier " "` is 2: `" "` is truthy in Python, and
`" ".lower().strip() = ""` is in neither lemma set. -/
theorem c6_counterexample : rarity_tier " " = 2 ∧ rarity_tier " " ≠ 0 := by
  constructor
  · decide
  · decide

/-- C6 (amended): `rarity_tier` returns 0 (common) on the empty string, but on
a non-empty whitespace-only string it returns 2 (rare), because the stripped
lowercased lemma is the empty string, which is in neither lemma set. -/
theorem c6_rarity_tier_degenerate :
    rarity_tier "" = 0 ∧
      ∀ s : String, s ≠ "" → (∀ c ∈ s.data, pyWs c = true) → rarity_tier s = 2 := by
  constructor
  · decide
  · intro s hne hws
    have hlow : pyLower s = s := by
      unfold pyLower
      rw [show s.data.map Char.toLower = s.data from
            List.map_congr_left (fun c hc => toLower_of_ws (hws c hc)) |>.trans
              (List.map_id s.data),
        stringMk_data]
    have hstrip : pyStrip s = "" := by
      unfold pyStrip stripData
      rw [dropWhile_eq_nil_of_forall hws]
      rfl
    unfold rarity_tier
    rw [if_neg hne]
    simp only [hlow, hstrip]
    rw [if_neg (by decide), if_neg (by decide)]

/-- C6 witness: the amended theorem applied at the blank input `" "`. -/
theorem c6_witness : rarity_tier "" = 0 ∧ rarity_tier " " = 2 :=
  ⟨c6_rarity_tier_degenerate.1,
    c6_rarity_tier_degenerate.2 " " (by decide) (by decide)⟩

/-! ## C9: determinism of the collocation miner -/

/-- C9: `extract_learning_phrases` is a pure function of the document mapping
(in document and token order) and the document count: two runs on equal inputs
return equal outputs (counts, document frequencies, scores, PMI values and
ordering included). -/
theorem c9_learning_phrases_deterministic
    (a₁ a₂ : List (String × List Token)) (total_docs : ℕ) (h : a₁ = a₂) :
    extract_learning_phrases a₁ total_docs = extract_learning_phrases a₂ total_docs := by
  rw [h]

/-- C9 witness: two runs on a small concrete corpus agree. -/
theorem c9_witness :
    extract_learning_phrases [("d1", [])] 1 = extract_learning_phrases [("d1", [])] 1 :=
  c9_learning_phrases_deterministic _ _ 1 rfl

/-! ## C2: the PMI formula and its numeric guards -/

theorem foldl_mul_eq_prod (ws : List String) (f : String → ℝ) :
    ws.foldl (fun acc w => acc * f w) 1 = (ws.map f).prod := by
  have key : ∀ a : ℝ, ws.foldl (fun acc w => acc * f w) a = a * (ws.map f).prod := by
    induction ws with
    | nil => intro a; simp
    | cons w ws ih =>
      intro a
      rw [List.foldl_cons, ih, List.map_cons, List.prod_cons, mul_assoc]
  simpa using key 1

/-- The PMI formula exactly as the specification states it: for an n-word
phrase with count c, total token count T and unigram counts us,
log2( (c+0.01) * (T+0.01)^(n-1) / (prod_i (us_i + 0.01) + 1e-10) ). -/
noncomputable def pmiFormula (c T : ℤ) (n : ℕ) (us : List ℕ) : ℝ :=
  Real.logb 2 ((((c : ℝ) + 0.01) * ((T : ℝ) + 0.01) ^ (n - 1)) /
    ((us.map (fun u => (Nat.cast u : ℝ) + 0.01)).prod + 1e-10))

/-- C2: for a phrase of n whitespace-separated words, `_pmi` returns the
rounded spec formula whenever T > 0, c > 0 and n ≥ 2 — with the divisor
nonzero and the log argument positive — and returns exactly 0 whenever
T ≤ 0, c ≤ 0 or n < 2. -/
theorem c2_pmi_formula (phrase : String) (c : ℤ) (unigram : List (String × ℕ))
    (T : ℤ) (n : ℕ) (hw : (pySplit phrase).length = n) :
    (0 < T → 0 < c → 2 ≤ n →
      _pmi phrase c unigram T n =
        round2 (pmiFormula c T n
          ((pySplit phrase).map (fun w => alGetD unigram w 0)))
      ∧ 0 < (((c : ℝ) + 0.01) * ((T : ℝ) + 0.01) ^ (n - 1)) /
          (((pySplit phrase).map
              (fun w => ((alGetD unigram w 0 : ℕ) : ℝ) + 0.01)).prod + 1e-10)
      ∧ (((pySplit phrase).map
            (fun w => ((alGetD unigram w 0 : ℕ) : ℝ) + 0.01)).prod + 1e-10) ≠ 0)
    ∧ ((T ≤ 0 ∨ c ≤ 0 ∨ n < 2) → _pmi phrase c unigram T n = 0) := by
  have hprodpos :
      0 < ((pySplit phrase).map
          (fun w => ((alGetD unigram w 0 : ℕ) : ℝ) + 0.01)).prod := by
    apply List.prod_pos
    intro x hx
    obtain ⟨w, _, rfl⟩ := List.mem_map.mp hx
    positivity
  have hdenpos :
      0 < ((pySplit phrase).map
          (fun w => ((alGetD unigram w 0 : ℕ) : ℝ) + 0.01)).prod + 1e-10 := by
    have : (0 : ℝ) < 1e-10 := by norm_num
    linarith
  constructor
  · intro hT hc hn
    have hg : ¬(T ≤ 0 ∨ c ≤ 0 ∨ n < 2) := by omega
    have hnumpos : 0 < ((c : ℝ) + 0.01) * ((T : ℝ) + 0.01) ^ (n - 1) := by
      have hc' : (1 : ℝ) ≤ (c : ℝ) := by exact_mod_cast hc
      have hT' : (1 : ℝ) ≤ (T : ℝ) := by exact_mod_cast hT
      have : (0 : ℝ) < (T : ℝ) + 0.01 := by linarith
      have := pow_pos this (n - 1)
      nlinarith
    refine ⟨?_, div_pos hnumpos hdenpos, ne_of_gt hdenpos⟩
    unfold _pmi
    rw [if_neg hg]
    simp only [hw, ne_eq, not_true_eq_false, if_false, ite_false]
    rw [foldl_mul_eq_prod (pySplit phrase)
      (fun w => ((alGetD unigram w 0 : ℕ) : ℝ) + 0.01)]
    unfold pmiFormula
    rw [List.map_map]
    rfl
  · intro hg
    unfold _pmi
    rw [if_pos hg]

/-- C2 witness: the theorem applied at the bigram "a b" with concrete counts,
in both the computing branch and a guard branch. -/
theorem c2_witness :
    _pmi "a b" 3 [("a", 2), ("b", 3)] 50 2 = round2 (pmiFormula 3 50 2 [2, 3]) ∧
      _pmi "a b" 3 [("a", 2), ("b", 3)] 0 2 = 0 := by
  constructor
  · have h := (c2_pmi_formula "a b" 3 [("a", 2), ("b", 3)] 50 2 (by decide)).1
      (by decide) (by decide) (by decide)
    rw [h.1,
      show ((pySplit "a b").map (fun w => alGetD [("a", 2), ("b", 3)] w 0)) = [2, 3]
        from by decide]
  · exact (c2_pmi_formula "a b" 3 [("a", 2), ("b", 3)] 0 2 (by decide)).2
      (Or.inl (by decide))

/-! ## C3: PMI monotonicity in the unigram counts -/

/-- Monotonicity of two-decimal rounding. -/
theorem round2_mono {x y : ℝ} (h : x ≤ y) : round2 x ≤ round2 y := by
  unfold round2
  have hr : round (x * 100) ≤ round (y * 100) := by
    rw [round_eq, round_eq]
    exact Int.floor_le_floor (by linarith)
  have hc : ((round (x * 100) : ℤ) : ℝ) ≤ ((round (y * 100) : ℤ) : ℝ) := by
    exact_mod_cast hr
  linarith

/-- If x^200 lies in [1/2, 2), then log2 x rounds to 0 at two decimals. -/
theorem round2_logb_eq_zero {x : ℝ} (hx : 0 < x)
    (h1 : 1 / 2 ≤ x ^ (200 : ℕ)) (h2 : x ^ (200 : ℕ) < 2) :
    round2 (Real.logb 2 x) = 0 := by
  have hlog2 : 0 < Real.log 2 := Real.log_pos (by norm_num)
  have hpow : Real.log (x ^ (200 : ℕ)) = 200 * Real.log x := by
    rw [Real.log_pow]
    norm_num
  have hlow : -Real.log 2 ≤ 200 * Real.log x := by
    have hle : Real.log (1 / 2) ≤ Real.log (x ^ (200 : ℕ)) :=
      (Real.log_le_log_iff (by norm_num) (pow_pos hx 200)).mpr h1
    rw [hpow] at hle
    rw [show (1 / 2 : ℝ) = 2⁻¹ by norm_num, Real.log_inv] at hle
    linarith
  have hhigh : 200 * Real.log x < Real.log 2 := by
    have hlt : Real.log (x ^ (200 : ℕ)) < Real.log 2 :=
      Real.log_lt_log (pow_pos hx 200) h2
    rwa [hpow] at hlt
  have hy : Real.logb 2 x * 100 = 200 * Real.log x / (2 * Real.log 2) := by
    rw [Real.logb]
    field_simp
    ring
  have hb : (0 : ℝ) < 2 * Real.log 2 := by linarith
  have ha1 : -(1 / 2 : ℝ) ≤ Real.logb 2 x * 100 := by
    rw [hy, le_div_iff₀ hb]
    nlinarith
  have ha2 : Real.logb 2 x * 100 < 1 / 2 := by
    rw [hy, div_lt_iff₀ hb]
    nlinarith
  have hround : round (Real.logb 2 x * 100) = 0 := by
    rw [round_eq]
    apply Int.floor_eq_zero_iff.mpr
    rw [Set.mem_Ico]
    constructor <;> linarith
  unfold round2
  rw [hround]
  norm_num

/-- Evaluation of `_pmi` on a two-word phrase with positive count and total. -/
theorem pmi_bigram_eval (c T : ℤ) (u : List (String × ℕ)) (p w1 w2 : String)
    (hsplit : pySplit p = [w1, w2]) (hc : 0 < c) (hT : 0 < T) :
    _pmi p c u T 2 =
      round2 (Real.logb 2 ((((c : ℝ) + 0.01) * ((T : ℝ) + 0.01) ^ (1 : ℕ)) /
        ((1 * (((alGetD u w1 0 : ℕ) : ℝ) + 0.01)) *
            (((alGetD u w2 0 : ℕ) : ℝ) + 0.01) + 1e-10))) := by
  unfold _pmi
  rw [if_neg (by omega)]
  simp only [hsplit, List.length_cons, List.length_nil]
  norm_num

/-- The pre-rounding bigram PMI of `_pmi`: the `log2` value to which the
computing branch applies `round(..., 2)`, as a function of the phrase count,
the total and the two unigram counts (`pmi_bigram_eval` ties it to `_pmi`). -/
noncomputable def pmiRaw (c T : ℤ) (u1 u2 : ℕ) : ℝ :=
  Real.logb 2 ((((c : ℝ) + 0.01) * ((T : ℝ) + 0.01) ^ (1 : ℕ)) /
    ((1 * ((u1 : ℝ) + 0.01)) * ((u2 : ℝ) + 0.01) + 1e-10))

/-- C3 (amended): for a bigram with fixed positive phrase count and total
token count, raising either word's unigram count never increases the returned
PMI (first conjunct); the returned value is the two-decimal rounding of the
pre-rounding PMI (second conjunct), and that pre-rounding PMI strictly
decreases as soon as one unigram count strictly increases (third conjunct) —
only the rounded value can stall, as the counterexample shows. -/
theorem c3_pmi_weakly_decreasing (p w1 w2 : String)
    (u u' : List (String × ℕ)) (c T : ℤ) (hsplit : pySplit p = [w1, w2])
    (hc : 0 < c) (hT : 0 < T)
    (h1 : alGetD u w1 0 ≤ alGetD u' w1 0) (h2 : alGetD u w2 0 ≤ alGetD u' w2 0) :
    _pmi p c u' T 2 ≤ _pmi p c u T 2 ∧
      _pmi p c u T 2 = round2 (pmiRaw c T (alGetD u w1 0) (alGetD u w2 0)) ∧
      ((alGetD u w1 0 < alGetD u' w1 0 ∨ alGetD u w2 0 < alGetD u' w2 0) →
        pmiRaw c T (alGetD u' w1 0) (alGetD u' w2 0) <
          pmiRaw c T (alGetD u w1 0) (alGetD u w2 0)) := by
  have hc' : (1 : ℝ) ≤ (c : ℝ) := by exact_mod_cast hc
  have hT' : (1 : ℝ) ≤ (T : ℝ) := by exact_mod_cast hT
  have hnum : 0 < ((c : ℝ) + 0.01) * ((T : ℝ) + 0.01) ^ (1 : ℕ) := by positivity
  have h1' : ((alGetD u w1 0 : ℕ) : ℝ) ≤ ((alGetD u' w1 0 : ℕ) : ℝ) := by
    exact_mod_cast h1
  have h2' : ((alGetD u w2 0 : ℕ) : ℝ) ≤ ((alGetD u' w2 0 : ℕ) : ℝ) := by
    exact_mod_cast h2
  have hd1 : (0 : ℝ) < (1 * (((alGetD u w1 0 : ℕ) : ℝ) + 0.01)) *
      (((alGetD u w2 0 : ℕ) : ℝ) + 0.01) + 1e-10 := by positivity
  have hd2 : (0 : ℝ) < (1 * (((alGetD u' w1 0 : ℕ) : ℝ) + 0.01)) *
      (((alGetD u' w2 0 : ℕ) : ℝ) + 0.01) + 1e-10 := by positivity
  refine ⟨?_, ?_, ?_⟩
  · rw [pmi_bigram_eval c T u p w1 w2 hsplit hc hT,
      pmi_bigram_eval c T u' p w1 w2 hsplit hc hT]
    apply round2_mono
    apply Real.logb_le_logb_of_le (by norm_num : (1 : ℝ) < 2)
    · positivity
    · simp only [one_mul]
      simp only [one_mul] at hd1 hd2
      rw [div_le_div_iff₀ hd2 hd1]
      have hD : (((alGetD u w1 0 : ℕ) : ℝ) + 0.01) *
            (((alGetD u w2 0 : ℕ) : ℝ) + 0.01) ≤
          (((alGetD u' w1 0 : ℕ) : ℝ) + 0.01) *
            (((alGetD u' w2 0 : ℕ) : ℝ) + 0.01) := by
        apply mul_le_mul (by linarith) (by linarith) (by positivity) (by positivity)
      nlinarith [hnum, hD]
  · rw [pmi_bigram_eval c T u p w1 w2 hsplit hc hT]
    rfl
  · intro hstrict
    unfold pmiRaw
    apply Real.logb_lt_logb (by norm_num : (1 : ℝ) < 2) (by positivity)
    rw [div_lt_div_iff₀ hd2 hd1]
    have hD : (1 * (((alGetD u w1 0 : ℕ) : ℝ) + 0.01)) *
          (((alGetD u w2 0 : ℕ) : ℝ) + 0.01) <
        (1 * (((alGetD u' w1 0 : ℕ) : ℝ) + 0.01)) *
          (((alGetD u' w2 0 : ℕ) : ℝ) + 0.01) := by
      simp only [one_mul]
      rcases hstrict with hs | hs
      · have hs' : ((alGetD u w1 0 : ℕ) : ℝ) + 1 ≤ ((alGetD u' w1 0 : ℕ) : ℝ) := by
          exact_mod_cast hs
        calc (((alGetD u w1 0 : ℕ) : ℝ) + 0.01) *
              (((alGetD u w2 0 : ℕ) : ℝ) + 0.01) <
            (((alGetD u' w1 0 : ℕ) : ℝ) + 0.01) *
              (((alGetD u w2 0 : ℕ) : ℝ) + 0.01) := by
              apply mul_lt_mul_of_pos_right (by linarith) (by positivity)
          _ ≤ (((alGetD u' w1 0 : ℕ) : ℝ) + 0.01) *
              (((alGetD u' w2 0 : ℕ) : ℝ) + 0.01) := by
              apply mul_le_mul_of_nonneg_left (by linarith) (by positivity)
      · have hs' : ((alGetD u w2 0 : ℕ) : ℝ) + 1 ≤ ((alGetD u' w2 0 : ℕ) : ℝ) := by
          exact_mod_cast hs
        calc (((alGetD u w1 0 : ℕ) : ℝ) + 0.01) *
              (((alGetD u w2 0 : ℕ) : ℝ) + 0.01) <
            (((alGetD u w1 0 : ℕ) : ℝ) + 0.01) *
              (((alGetD u' w2 0 : ℕ) : ℝ) + 0.01) := by
              apply mul_lt_mul_of_pos_left (by linarith) (by positivity)
          _ ≤ (((alGetD u' w1 0 : ℕ) : ℝ) + 0.01) *
              (((alGetD u' w2 0 : ℕ) : ℝ) + 0.01) := by
              apply mul_le_mul_of_nonneg_right (by linarith) (by positivity)
    nlinarith [hnum, hD]

/-- C3 witness: the amended theorem at a concrete bigram and concrete counts:
raising the first unigram count 5 → 6 never raises the returned PMI and
strictly lowers the pre-rounding PMI. -/
theorem c3_witness :
    _pmi "a b" 2 [("a", 6), ("b", 7)] 9 2 ≤ _pmi "a b" 2 [("a", 5), ("b", 7)] 9 2 ∧
      pmiRaw 2 9 6 7 < pmiRaw 2 9 5 7 := by
  have h := c3_pmi_weakly_decreasing "a b" "a" "b" [("a", 5), ("b", 7)]
    [("a", 6), ("b", 7)] 2 9 (by decide) (by norm_num) (by norm_num)
    (by decide) (by decide)
  refine ⟨h.1, ?_⟩
  have hs := h.2.2 (by decide)
  rw [show alGetD [("a", 6), ("b", 7)] "a" 0 = 6 from by decide,
    show alGetD [("a", 6), ("b", 7)] "b" 0 = 7 from by decide,
    show alGetD [("a", 5), ("b", 7)] "a" 0 = 5 from by decide,
    show alGetD [("a", 5), ("b", 7)] "b" 0 = 7 from by decide] at hs
  exact hs

/-- C3 counterexample: with c = 10, T = 10000 and unigram counts
(1000, 100), raising the first unigram count to 1001 leaves the returned PMI
unchanged (both round to 0.00), so the claimed strict decrease fails. -/
theorem c3_counterexample :
    ¬ (_pmi "w1 w2" 10 [("w1", 1001), ("w2", 100)] 10000 2 <
        _pmi "w1 w2" 10 [("w1", 1000), ("w2", 100)] 10000 2) := by
  have hA : _pmi "w1 w2" 10 [("w1", 1000), ("w2", 100)] 10000 2 = 0 := by
    rw [pmi_bigram_eval 10 10000 _ _ "w1" "w2" (by decide) (by norm_num) (by norm_num)]
    rw [show (alGetD [("w1", 1000), ("w2", 100)] "w1" 0) = 1000 from by decide,
      show (alGetD [("w1", 1000), ("w2", 100)] "w2" 0) = 100 from by decide]
    rw [show ((((10 : ℤ) : ℝ) + 0.01) * (((10000 : ℤ) : ℝ) + 0.01) ^ (1 : ℕ)) /
        ((1 * (((1000 : ℕ) : ℝ) + 0.01)) * (((100 : ℕ) : ℝ) + 0.01) + 1e-10) =
        (1001001001000000 : ℝ) / 1000110001000001 from by push_cast; norm_num]
    apply round2_logb_eq_zero (by positivity)
    · rw [div_pow, le_div_iff₀ (by positivity)]
      have hn : (1000110001000001 : ℕ) ^ 200 ≤ 2 * (1001001001000000 : ℕ) ^ 200 := by
        decide
      have hr : (1000110001000001 : ℝ) ^ 200 ≤ 2 * (1001001001000000 : ℝ) ^ 200 := by
        exact_mod_cast hn
      linarith
    · rw [div_pow, div_lt_iff₀ (by positivity)]
      have hn : (1001001001000000 : ℕ) ^ 200 < 2 * (1000110001000001 : ℕ) ^ 200 := by
        decide
      have hr : (1001001001000000 : ℝ) ^ 200 < 2 * (1000110001000001 : ℝ) ^ 200 := by
        exact_mod_cast hn
      linarith
  have hB : _pmi "w1 w2" 10 [("w1", 1001), ("w2", 100)] 10000 2 = 0 := by
    rw [pmi_bigram_eval 10 10000 _ _ "w1" "w2" (by decide) (by norm_num) (by norm_num)]
    rw [show (alGetD [("w1", 1001), ("w2", 100)] "w1" 0) = 1001 from by decide,
      show (alGetD [("w1", 1001), ("w2", 100)] "w2" 0) = 100 from by decide]
    rw [show ((((10 : ℤ) : ℝ) + 0.01) * (((10000 : ℤ) : ℝ) + 0.01) ^ (1 : ℕ)) /
        ((1 * (((1001 : ℕ) : ℝ) + 0.01)) * (((100 : ℕ) : ℝ) + 0.01) + 1e-10) =
        (1001001001000000 : ℝ) / 1001110101000001 from by push_cast; norm_num]
    apply round2_logb_eq_zero (by positivity)
    · rw [div_pow, le_div_iff₀ (by positivity)]
      have hn : (1001110101000001 : ℕ) ^ 200 ≤ 2 * (1001001001000000 : ℕ) ^ 200 := by
        decide
      have hr : (1001110101000001 : ℝ) ^ 200 ≤ 2 * (1001001001000000 : ℝ) ^ 200 := by
        exact_mod_cast hn
      linarith
    · rw [div_pow, div_lt_iff₀ (by positivity)]
      have hn : (1001001001000000 : ℕ) ^ 200 < 2 * (1001110101000001 : ℕ) ^ 200 := by
        decide
      have hr : (1001001001000000 : ℝ) ^ 200 < 2 * (1001110101000001 : ℝ) ^ 200 := by
        exact_mod_cast hn
      linarith
  rw [hA, hB]
  exact lt_irrefl 0

/-! ## The vocabulary pipeline, decomposed -/

/-- Whether a token is counted by `extract_vocabulary`. -/
def vocabQual (t : Token) : Bool :=
  (decide (t.pos ∈ CONTENT_POS) && !t.is_stop) && !(is_common_lemma t.lemma')

/-- The lemmas counted by `extract_vocabulary`, in token order. -/
def vocabLemmas (tokens : List Token) : List String :=
  (tokens.filter vocabQual).map (·.lemma')

/-- Whether the loop body's `continue` skips the `total_tokens` increment for
a token: content POS, not a stop word, but a common lemma. -/
def vocabSkip (t : Token) : Bool :=
  (decide (t.pos ∈ CONTENT_POS) && !t.is_stop) && is_common_lemma t.lemma'

/-- The lemma counter of `extract_vocabulary`. -/
def vocabItems (tokens : List Token) : List (String × ℕ) :=
  (tokens.foldl vocabStep (([], []), 0)).1.1

/-- The `total_tokens` accumulator of `extract_vocabulary` after the loop. -/
def vocabTotal (tokens : List Token) : ℕ :=
  (tokens.foldl vocabStep (([], []), 0)).2

theorem vocabStep_eq (st : (List (String × ℕ) × List (String × List String)) × ℕ)
    (t : Token) :
    vocabStep st t =
      ((if vocabQual t then
          (alBump st.1.1 t.lemma', alAddToSet st.1.2 t.lemma' t.text)
        else st.1),
        if vocabSkip t then st.2 else st.2 + 1) := by
  obtain ⟨⟨cnt, smap⟩, tot⟩ := st
  unfold vocabStep vocabQual vocabSkip
  by_cases h1 : decide (t.pos ∈ CONTENT_POS) && !t.is_stop
  · by_cases h2 : is_common_lemma t.lemma'
    · simp [h1, h2]
    · simp [h1, h2]
  · simp [h1]

theorem vocabFold_fst (tokens : List Token)
    (st : (List (String × ℕ) × List (String × List String)) × ℕ) :
    (tokens.foldl vocabStep st).1.1 = (vocabLemmas tokens).foldl alBump st.1.1 := by
  induction tokens generalizing st with
  | nil => rfl
  | cons t ts ih =>
    rw [List.foldl_cons, ih, vocabStep_eq]
    show _ = List.foldl alBump st.1.1 ((List.filter vocabQual (t :: ts)).map (·.lemma'))
    rw [List.filter_cons]
    by_cases h : vocabQual t
    · simp only [h, if_true, List.map_cons, List.foldl_cons]
      rfl
    · simp only [h, Bool.false_eq_true, if_false]
      rfl

theorem vocabFold_snd (tokens : List Token)
    (st : (List (String × ℕ) × List (String × List String)) × ℕ) :
    (tokens.foldl vocabStep st).2 =
      st.2 + (tokens.filter (fun t => !vocabSkip t)).length := by
  induction tokens generalizing st with
  | nil => rfl
  | cons t ts ih =>
    rw [List.foldl_cons, ih, vocabStep_eq, List.filter_cons]
    show (if vocabSkip t then st.2 else st.2 + 1) +
        (ts.filter (fun t => !vocabSkip t)).length = _
    by_cases h : vocabSkip t
    · rw [if_pos h]
      rw [show (!vocabSkip t) = false from by rw [h]; rfl]
      rfl
    · rw [if_neg h]
      rw [Bool.not_eq_true] at h
      rw [show (!vocabSkip t) = true from by rw [h]; rfl]
      rw [if_pos rfl, List.length_cons]
      omega

theorem vocabItems_eq (tokens : List Token) :
    vocabItems tokens = (vocabLemmas tokens).foldl alBump [] :=
  vocabFold_fst tokens (([], []), 0)

theorem vocabTotal_eq (tokens : List Token) :
    vocabTotal tokens = (tokens.filter (fun t => !vocabSkip t)).length := by
  unfold vocabTotal
  rw [vocabFold_snd]
  omega

theorem vocabItems_nil_of_total_zero {tokens : List Token}
    (h : vocabTotal tokens = 0) : vocabItems tokens = [] := by
  rw [vocabTotal_eq, List.length_eq_zero] at h
  have hq : ∀ t ∈ tokens, vocabQual t = false := by
    intro t ht
    have hskip : vocabSkip t = true := by
      by_contra hns
      have hmem : t ∈ tokens.filter (fun t => !vocabSkip t) :=
        List.mem_filter.mpr ⟨ht, by simp [Bool.not_eq_true] at hns ⊢; exact hns⟩
      rw [h] at hmem
      simp at hmem
    unfold vocabSkip at hskip
    rw [Bool.and_eq_true] at hskip
    unfold vocabQual
    rw [hskip.1, hskip.2]
    rfl
  have hfil : tokens.filter vocabQual = [] :=
    List.filter_eq_nil_iff.mpr (by intro t ht; simp [hq t ht])
  rw [vocabItems_eq,
    show vocabLemmas tokens = [] from by unfold vocabLemmas; rw [hfil]; rfl]
  rfl

theorem vocabItems_keys_not_common (tokens : List Token) :
    ∀ k ∈ alKeys (vocabItems tokens), is_common_lemma k = false := by
  intro k hk
  rw [vocabItems_eq] at hk
  rcases (mem_alKeys_foldl_alBump _ _ _).mp hk with h | h
  · simp at h
  · obtain ⟨t, ht, rfl⟩ := List.mem_map.mp h
    have hq : vocabQual t = true := (List.mem_filter.mp ht).2
    unfold vocabQual at hq
    simp only [Bool.and_eq_true, Bool.not_eq_true'] at hq
    exact hq.2

/-- Membership in the vocabulary output, decomposed to the counter. -/
theorem extract_vocabulary_mem {tokens : List Token} {e : VocabEntry}
    (he : e ∈ extract_vocabulary tokens) :
    ∃ kv ∈ vocabItems tokens,
      e = mkVocabEntry (tokens.foldl vocabStep (([], []), 0)).1.2
        (vocabTotal tokens) kv := by
  unfold extract_vocabulary at he
  by_cases h0 : (tokens.foldl vocabStep (([], []), 0)).2 = 0
  · rw [if_pos h0] at he
    simp at he
  · rw [if_neg h0] at he
    obtain ⟨kv, hkv, rfl⟩ := List.mem_map.mp (mem_of_mem_mergeSort_take he)
    exact ⟨kv, hkv, rfl⟩

/-! ## C4: the per-ten-thousand rate -/

/-- C4 (amended): every emitted vocabulary entry's rate equals
round((count / total) * 10000, 2), where `total` is the loop's
`total_tokens` accumulator: it counts every supplied token EXCEPT
content-POS non-stop tokens whose lemma is common — for those the `continue`
fires before `total_tokens += 1`, so they are excluded from the denominator
(the original claim's "every token supplied, including common lemmas" is
false; see the counterexample). -/
theorem c4_vocabulary_rate (tokens : List Token) (e : VocabEntry)
    (he : e ∈ extract_vocabulary tokens) :
    e.p10k = round2 (((e.c : ℝ) / (vocabTotal tokens : ℝ)) * 10000) := by
  obtain ⟨kv, _, rfl⟩ := extract_vocabulary_mem he
  rfl

/-- A token skipped by the vocabulary counter (ignored POS, stop word). -/
def fillerTok : Token := ⟨"", "", "", "PUNCT", true⟩

/-- A counted token with the rare lemma "zephyr". -/
def zephyrTok : Token := ⟨"zephyr", "zephyr", "zephyr", "NOUN", false⟩

/-- A 10000-token corpus: 9993 skipped tokens and 7 "zephyr" tokens. -/
def c4corpus : List Token :=
  List.replicate 9993 fillerTok ++ List.replicate 7 zephyrTok

theorem foldl_replicate_fix {α β : Type} (f : β → α → β) (a : α)
    (h : ∀ st, f st a = st) (n : ℕ) (st : β) :
    (List.replicate n a).foldl f st = st := by
  induction n with
  | zero => rfl
  | succ n ih => rw [List.replicate_succ, List.foldl_cons, h, ih]

theorem foldl_replicate_snd {α β : Type} (f : β × ℕ → α → β × ℕ) (a : α)
    (h : ∀ st, f st a = (st.1, st.2 + 1)) (n : ℕ) (st : β × ℕ) :
    (List.replicate n a).foldl f st = (st.1, st.2 + n) := by
  induction n generalizing st with
  | zero => rfl
  | succ n ih =>
    rw [List.replicate_succ, List.foldl_cons, h, ih]
    rw [show st.2 + 1 + n = st.2 + (n + 1) from by omega]

theorem c4corpus_fold :
    c4corpus.foldl vocabStep (([], []), 0) =
      (([("zephyr", 7)], [("zephyr", ["zephyr"])]), 10000) := by
  unfold c4corpus
  rw [List.foldl_append, foldl_replicate_snd vocabStep fillerTok (fun st => rfl)]
  decide

theorem c4corpus_length : c4corpus.length = 10000 := by
  unfold c4corpus
  rw [List.length_append, List.length_replicate, List.length_replicate]

theorem c4corpus_total : vocabTotal c4corpus = 10000 := by
  unfold vocabTotal
  rw [c4corpus_fold]

theorem c4corpus_vocab :
    extract_vocabulary c4corpus =
      [mkVocabEntry [("zephyr", ["zephyr"])] 10000 ("zephyr", 7)] := by
  unfold extract_vocabulary
  rw [c4corpus_fold]
  norm_num

theorem round2_natCast (n : ℕ) : round2 ((n : ℕ) : ℝ) = (n : ℝ) := by
  unfold round2
  rw [show ((n : ℝ) * 100) = (((n * 100 : ℕ) : ℕ) : ℝ) by push_cast; ring,
    round_natCast]
  push_cast
  field_simp

/-- C4 witness: on the 10000-token corpus (whose skipped tokens are
stop-word punctuation, so the loop's total is the full 10000) with "zephyr"
occurring 7 times, the emitted entry has rate exactly 7.00. -/
theorem c4_witness :
    ∃ e ∈ extract_vocabulary c4corpus, e.t = "zephyr" ∧ e.c = 7 ∧ e.p10k = 7 := by
  have hm : mkVocabEntry [("zephyr", ["zephyr"])] 10000 ("zephyr", 7) ∈
      extract_vocabulary c4corpus := by
    rw [c4corpus_vocab]
    simp
  refine ⟨_, hm, rfl, rfl, ?_⟩
  have h := c4_vocabulary_rate c4corpus _ hm
  rw [h, c4corpus_total]
  show round2 (((7 : ℕ) : ℝ) / ((10000 : ℕ) : ℝ) * 10000) = 7
  rw [show (((7 : ℕ) : ℝ) / ((10000 : ℕ) : ℝ) * 10000) = ((7 : ℕ) : ℝ) by push_cast; ring_nf,
    round2_natCast]
  norm_num

/-- A content-POS, non-stop token whose lemma "people" is in `COMMON_LEMMAS`:
the loop's `continue` skips it before `total_tokens += 1`. -/
def peopleTok : Token := ⟨"people", "people", "people", "NOUN", false⟩

/-- A two-token corpus on which the loop's total is 1, not 2. -/
def c4bad : List Token := [peopleTok, zephyrTok]

theorem c4bad_fold :
    c4bad.foldl vocabStep (([], []), 0) =
      (([("zephyr", 1)], [("zephyr", ["zephyr"])]), 1) := by
  decide

theorem c4bad_vocab :
    extract_vocabulary c4bad =
      [mkVocabEntry [("zephyr", ["zephyr"])] 1 ("zephyr", 1)] := by
  unfold extract_vocabulary
  rw [c4bad_fold]
  norm_num

/-- C4 counterexample: on the two-token corpus `[people, zephyr]` the common
NOUN "people" is skipped by `continue` before the total increment, so the
denominator is 1, not the input length 2: "zephyr" is emitted with rate
round(1/1*10000, 2) = 10000.00, while the original claim's formula over the
full input length gives round(1/2*10000, 2) = 5000.00. -/
theorem c4_counterexample :
    ¬ (∀ e ∈ extract_vocabulary c4bad,
        e.p10k = round2 (((e.c : ℝ) / (c4bad.length : ℝ)) * 10000)) := by
  intro hall
  have hm : mkVocabEntry [("zephyr", ["zephyr"])] 1 ("zephyr", 1) ∈
      extract_vocabulary c4bad := by
    rw [c4bad_vocab]
    simp
  have h := hall _ hm
  rw [show (mkVocabEntry [("zephyr", ["zephyr"])] 1 ("zephyr", 1)).p10k =
      round2 ((((1 : ℕ) : ℝ) / ((1 : ℕ) : ℝ)) * 10000) from rfl,
    show (mkVocabEntry [("zephyr", ["zephyr"])] 1 ("zephyr", 1)).c = (1 : ℕ) from rfl,
    show (c4bad.length : ℝ) = ((2 : ℕ) : ℝ) from by norm_num [c4bad]] at h
  rw [show ((((1 : ℕ) : ℝ) / ((1 : ℕ) : ℝ)) * 10000) = ((10000 : ℕ) : ℝ) from by
      push_cast; norm_num,
    show ((((1 : ℕ) : ℝ) / ((2 : ℕ) : ℝ)) * 10000) = ((5000 : ℕ) : ℝ) from by
      push_cast; norm_num,
    round2_natCast, round2_natCast] at h
  norm_num at h

/-! ## C10: no tier-0 entry is ever emitted -/

/-- C10: every emitted vocabulary entry has rarity tier 1 or 2, because only
lemmas with `is_common_lemma` false are counted, and on those `rarity_tier`
returns 1 or 2 (even for degenerate lemmas such as whitespace-only strings). -/
theorem c10_no_common_tier :
    (∀ (tokens : List Token) (e : VocabEntry),
        e ∈ extract_vocabulary tokens → e.r = 1 ∨ e.r = 2) ∧
      (∀ s : String, is_common_lemma s = false → rarity_tier s = 1 ∨ rarity_tier s = 2) := by
  have part2 : ∀ s : String, is_common_lemma s = false →
      rarity_tier s = 1 ∨ rarity_tier s = 2 := by
    intro s hs
    unfold is_common_lemma at hs
    by_cases he : s = ""
    · rw [if_pos he] at hs
      exact absurd hs (by simp)
    · rw [if_neg he] at hs
      have hnc : pyStrip (pyLower s) ∉ COMMON_LEMMAS := of_decide_eq_false hs
      unfold rarity_tier
      rw [if_neg he]
      simp only [hnc, if_false]
      by_cases hm : pyStrip (pyLower s) ∈ MODERATE_LEMMAS
      · exact Or.inl (by simp [hm])
      · exact Or.inr (by simp [hm])
  refine ⟨?_, part2⟩
  intro tokens e he
  obtain ⟨kv, hkv, rfl⟩ := extract_vocabulary_mem he
  have hk : kv.1 ∈ alKeys (vocabItems tokens) := by
    unfold alKeys
    exact List.mem_map_of_mem Prod.fst hkv
  exact part2 kv.1 (vocabItems_keys_not_common tokens kv.1 hk)

/-- C10 witness: the theorem applied to the concrete corpus entry and to the
degenerate whitespace-only lemma. -/
theorem c10_witness :
    (∃ e ∈ extract_vocabulary c4corpus, e.r = 1 ∨ e.r = 2) ∧
      (rarity_tier " " = 1 ∨ rarity_tier " " = 2) := by
  constructor
  · have hm : mkVocabEntry [("zephyr", ["zephyr"])] 10000 ("zephyr", 7) ∈
        extract_vocabulary c4corpus := by
      rw [c4corpus_vocab]
      simp
    exact ⟨_, hm, c10_no_common_tier.1 c4corpus _ hm⟩
  · exact c10_no_common_tier.2 " " (by decide)

/-! ## C5: vocabulary ranking and cap -/

/-- C5: the vocabulary output is sorted by rarity tier then count, both
descending, holds at most 1000 entries, and when more than 1000 distinct
qualifying lemmas exist it holds exactly the 1000 entries with the highest
(rarityTier, count) keys: the remaining entries all have keys no larger than
every emitted one. -/
theorem c5_vocabulary_cap_and_order (tokens : List Token) :
    (extract_vocabulary tokens).length ≤ 1000 ∧
      List.Pairwise (fun a b => b.r < a.r ∨ (b.r = a.r ∧ b.c ≤ a.c))
        (extract_vocabulary tokens) ∧
      (1000 < (vocabItems tokens).length →
        (extract_vocabulary tokens).length = 1000 ∧
          ∃ dropped : List VocabEntry,
            (((vocabItems tokens).map
                (mkVocabEntry (tokens.foldl vocabStep (([], []), 0)).1.2
                  (vocabTotal tokens))).Perm
              (extract_vocabulary tokens ++ dropped)) ∧
              ∀ a ∈ extract_vocabulary tokens, ∀ b ∈ dropped,
                b.r < a.r ∨ (b.r = a.r ∧ b.c ≤ a.c)) := by
  by_cases h0 : vocabTotal tokens = 0
  · have hout : extract_vocabulary tokens = [] := by
      unfold extract_vocabulary
      rw [if_pos (show (tokens.foldl vocabStep (([], []), 0)).2 = 0 from h0)]
    rw [hout]
    refine ⟨by simp, by simp, ?_⟩
    intro hcount
    rw [vocabItems_nil_of_total_zero h0] at hcount
    simp at hcount
  · have h0' : ¬ (tokens.foldl vocabStep (([], []), 0)).2 = 0 := h0
    have hout : extract_vocabulary tokens =
        (((vocabItems tokens).map
          (mkVocabEntry (tokens.foldl vocabStep (([], []), 0)).1.2
            (vocabTotal tokens))).mergeSort vocabLe).take 1000 := by
      unfold extract_vocabulary
      rw [if_neg h0']
      rfl
    set L := (vocabItems tokens).map
      (mkVocabEntry (tokens.foldl vocabStep (([], []), 0)).1.2
        (vocabTotal tokens)) with hL
    set M := L.mergeSort vocabLe with hM
    have hsorted : List.Pairwise (fun a b => vocabLe a b = true) M :=
      List.sorted_mergeSort vocabLe_trans vocabLe_total L
    have hlenM : M.length = (vocabItems tokens).length := by
      rw [hM, (L.mergeSort_perm vocabLe).length_eq, hL, List.length_map]
    refine ⟨?_, ?_, ?_⟩
    · rw [hout, List.length_take]
      exact inf_le_left
    · rw [hout]
      exact ((hsorted.sublist (List.take_sublist 1000 M)).imp
        (fun hab => of_decide_eq_true hab))
    · intro hcount
      constructor
      · rw [hout, List.length_take, hlenM]
        omega
      · refine ⟨M.drop 1000, ?_, ?_⟩
        · rw [hout]
          have h1 : L.Perm M := (L.mergeSort_perm vocabLe).symm
          rw [← List.take_append_drop 1000 M] at h1
          exact h1
        · rw [hout]
          have h2 := hsorted
          rw [← List.take_append_drop 1000 M] at h2
          have h3 := (List.pairwise_append.mp h2).2.2
          intro a ha b hb
          exact of_decide_eq_true (h3 a ha b hb)

/-- Distinct rare lemmas "z", "zq", "zqq", ... (no common-list word starts
with 'z', so every one is rare). -/
def wordZQ (i : ℕ) : String := ⟨'z' :: List.replicate i 'q'⟩

def zqTok (i : ℕ) : Token := ⟨"", wordZQ i, wordZQ i, "NOUN", false⟩

/-- A corpus with 1001 distinct qualifying lemmas. -/
def b5corpus : List Token := (List.range 1001).map zqTok

theorem commonLemmas_no_z : ∀ s ∈ COMMON_LEMMAS, s.data.head? ≠ some 'z' := by
  decide

theorem wordZQ_ne_empty (i : ℕ) : wordZQ i ≠ "" := by
  unfold wordZQ
  intro h
  have : 'z' :: List.replicate i 'q' = ([] : List Char) := congrArg String.data h
  simp at this

theorem wordZQ_chars {i : ℕ} : ∀ c ∈ (wordZQ i).data, c = 'z' ∨ c = 'q' := by
  intro c hc
  rcases List.mem_cons.mp hc with rfl | hc
  · exact Or.inl rfl
  · exact Or.inr (List.eq_of_mem_replicate hc)

theorem pyLower_wordZQ (i : ℕ) : pyLower (wordZQ i) = wordZQ i := by
  unfold pyLower wordZQ
  simp only [List.map_cons, List.map_replicate]
  rw [show 'z'.toLower = 'z' from by decide, show 'q'.toLower = 'q' from by decide]

theorem pyStrip_wordZQ (i : ℕ) : pyStrip (wordZQ i) = wordZQ i := by
  apply pyStrip_eq_self
  intro c hc
  rcases wordZQ_chars c hc with rfl | rfl <;> decide

theorem wordZQ_not_common (i : ℕ) : is_common_lemma (wordZQ i) = false := by
  unfold is_common_lemma
  rw [if_neg (wordZQ_ne_empty i), pyLower_wordZQ, pyStrip_wordZQ]
  apply decide_eq_false
  intro h
  exact commonLemmas_no_z _ h rfl

theorem wordZQ_inj : Function.Injective wordZQ := by
  intro i j h
  unfold wordZQ at h
  have hdata := congrArg String.data h
  simp only at hdata
  have := congrArg List.length (List.cons_injective.eq_iff.mp hdata ▸ rfl :
    List.replicate i 'q' = List.replicate j 'q')
  simpa using this

theorem b5_vocabLemmas : vocabLemmas b5corpus = (List.range 1001).map wordZQ := by
  unfold vocabLemmas b5corpus
  rw [List.filter_eq_self.mpr]
  · rw [List.map_map]
    rfl
  · intro t ht
    obtain ⟨i, _, rfl⟩ := List.mem_map.mp ht
    unfold vocabQual
    rw [show (zqTok i).is_stop = false from rfl,
      show (zqTok i).lemma' = wordZQ i from rfl, wordZQ_not_common i,
      show (zqTok i).pos = "NOUN" from rfl]
    decide

theorem b5_items_len : (vocabItems b5corpus).length = 1001 := by
  rw [vocabItems_eq, b5_vocabLemmas, foldl_alBump_fresh _ _ (by simp)
    (((List.nodup_range 1001).map wordZQ_inj))]
  simp

/-- C5 witness: on the corpus with 1001 distinct qualifying lemmas, exactly
1000 entries are returned. -/
theorem c5_witness : (extract_vocabulary b5corpus).length = 1000 :=
  ((c5_vocabulary_cap_and_order b5corpus).2.2 (by rw [b5_items_len]; omega)).1

/-! ## The pattern pipeline, decomposed -/

/-- The occurrence stream of `aggregate_patterns`, in processing order:
each pattern dict paired with the id of the document it came from. -/
def patStream (P : List (String × List PatternOcc)) : List (String × PatternOcc) :=
  (P.map (fun dp => dp.2.map (fun p => (dp.1, p)))).flatten

/-- All occurrences of the pattern key `k`, in processing order. -/
def patOccs (P : List (String × List PatternOcc)) (k : String) :
    List (String × PatternOcc) :=
  (patStream P).filter (fun dp => decide (dp.2.t = k))

theorem patState_eq_stream (P : List (String × List PatternOcc)) :
    patState P = (patStream P).foldl (fun st dp => patStep dp.1 st dp.2) patInit := by
  suffices h : ∀ st, P.foldl (fun st dp => dp.2.foldl (patStep dp.1) st) st =
      (patStream P).foldl (fun st dp => patStep dp.1 st dp.2) st from h patInit
  intro st
  induction P generalizing st with
  | nil => rfl
  | cons dp rest ih =>
    rw [List.foldl_cons, ih]
    unfold patStream
    rw [List.map_cons, List.flatten_cons, List.foldl_append, List.foldl_map]

theorem patFold_count (l : List (String × PatternOcc)) (st : PatState) :
    (l.foldl (fun st dp => patStep dp.1 st dp.2) st).count =
      (l.map (fun dp => dp.2.t)).foldl alBump st.count := by
  induction l generalizing st with
  | nil => rfl
  | cons dp rest ih =>
    rw [List.foldl_cons, ih, List.map_cons, List.foldl_cons]
    rfl

theorem patFold_kind (l : List (String × PatternOcc)) (st : PatState) :
    (l.foldl (fun st dp => patStep dp.1 st dp.2) st).kind =
      (l.map (fun dp => (dp.2.t, dp.2.kind))).foldl
        (fun m kv => alPut m kv.1 kv.2) st.kind := by
  induction l generalizing st with
  | nil => rfl
  | cons dp rest ih =>
    rw [List.foldl_cons, ih, List.map_cons, List.foldl_cons]
    rfl

theorem patFold_docs (l : List (String × PatternOcc)) (st : PatState) :
    (l.foldl (fun st dp => patStep dp.1 st dp.2) st).docs =
      (l.map (fun dp => (dp.2.t, dp.1))).foldl
        (fun m kv => alAddToSet m kv.1 kv.2) st.docs := by
  induction l generalizing st with
  | nil => rfl
  | cons dp rest ih =>
    rw [List.foldl_cons, ih, List.map_cons, List.foldl_cons]
    rfl

theorem count_map_eq_countP (l : List (String × PatternOcc)) (k : String) :
    (l.map (fun dp => dp.2.t)).count k =
      l.countP (fun dp => decide (dp.2.t = k)) := by
  induction l with
  | nil => rfl
  | cons dp rest ih =>
    rw [List.map_cons, List.count_cons, List.countP_cons, ih]
    by_cases h : dp.2.t = k
    · simp [h]
    · simp [h]

/-- The value stored by a left fold of dictionary overwrites is the last
value written for the key, if any. -/
theorem alGet_foldl_alPut (ps : List (String × String))
    (m : List (String × String)) (k : String) :
    alGet (ps.foldl (fun m kv => alPut m kv.1 kv.2) m) k =
      (((ps.filter (fun kv => decide (kv.1 = k))).map (fun kv => kv.2)).getLast?).or
        (alGet m k) := by
  induction ps using List.reverseRecOn generalizing m with
  | nil => simp
  | append_singleton ps kv ih =>
    rw [List.foldl_append, List.foldl_cons, List.foldl_nil, List.filter_append]
    by_cases h : kv.1 = k
    · subst h
      rw [alGet_alPut_self]
      have hf : List.filter (fun kv' => decide (kv'.1 = kv.1)) [kv] = [kv] := by
        simp
      rw [hf, List.map_append]
      simp
    · have hf : List.filter (fun kv' => decide (kv'.1 = k)) [kv] = [] := by
        simp [h]
      rw [alGet_alPut_ne _ _ h, ih, hf, List.append_nil]

theorem mem_alGetD_foldl_alAddToSet (ps : List (String × String))
    (m : List (String × List String)) (k x : String) :
    (x ∈ alGetD (ps.foldl (fun m kv => alAddToSet m kv.1 kv.2) m) k [] ↔
      x ∈ alGetD m k [] ∨ (k, x) ∈ ps) := by
  induction ps generalizing m with
  | nil => simp
  | cons kv ps ih =>
    obtain ⟨k1, v1⟩ := kv
    rw [List.foldl_cons, ih]
    by_cases h : k1 = k
    · subst h
      rw [alGetD_alAddToSet_self]
      by_cases hv : v1 ∈ alGetD m k1 []
      · rw [if_pos hv]
        constructor
        · rintro (hx | hp)
          · exact Or.inl hx
          · exact Or.inr (List.mem_cons_of_mem _ hp)
        · rintro (hx | hp)
          · exact Or.inl hx
          · rcases List.mem_cons.mp hp with he | hp
            · obtain ⟨-, rfl⟩ := Prod.mk.injEq .. ▸ he
              exact Or.inl hv
            · exact Or.inr hp
      · rw [if_neg hv]
        simp only [List.mem_append, List.mem_singleton, List.mem_cons,
          Prod.mk.injEq, true_and]
        tauto
    · rw [alGetD_alAddToSet_ne _ _ h]
      simp only [List.mem_cons, Prod.mk.injEq]
      have : ¬ (k = k1) := fun hh => h hh.symm
      tauto

theorem nodup_alGetD_foldl_alAddToSet (ps : List (String × String))
    (m : List (String × List String)) (hm : ∀ k, (alGetD m k []).Nodup) :
    ∀ k, (alGetD (ps.foldl (fun m kv => alAddToSet m kv.1 kv.2) m) k []).Nodup := by
  induction ps generalizing m with
  | nil => exact hm
  | cons kv ps ih =>
    obtain ⟨k1, v1⟩ := kv
    rw [List.foldl_cons]
    apply ih
    intro k
    by_cases h : k1 = k
    · subst h
      rw [alGetD_alAddToSet_self]
      by_cases hv : v1 ∈ alGetD m k1 []
      · rw [if_pos hv]
        exact hm k1
      · rw [if_neg hv]
        simp [List.nodup_append, hm k1, hv]
    · rw [alGetD_alAddToSet_ne _ _ h]
      exact hm k

/-! ## C8: aggregation per pattern key -/

theorem aggregate_patterns_mem {P : List (String × List PatternOcc)}
    {e : PatternEntry} (he : e ∈ aggregate_patterns P) :
    ∃ kv ∈ (patState P).count,
      head_lemma_is_common kv.1 = false ∧ e = mkPatternEntry (patState P) kv := by
  unfold aggregate_patterns at he
  obtain ⟨kv, hkv, hfe⟩ := List.mem_filterMap.mp he
  by_cases h : head_lemma_is_common kv.1
  · rw [if_pos h] at hfe
    exact absurd hfe (by simp)
  · rw [if_neg h] at hfe
    exact ⟨kv, mem_of_mem_mergeSort_take hkv, by simpa using h,
      (Option.some.injEq .. ▸ hfe).symm⟩

/-- C8 (amended): for every emitted pattern entry, the kind is the kind of
the LAST occurrence observed for that key (in document and occurrence order),
the count is the total number of occurrences of the key, and the document
frequency is the number of distinct contributing documents. -/
theorem c8_pattern_merge (P : List (String × List PatternOcc)) (e : PatternEntry)
    (he : e ∈ aggregate_patterns P) :
    some e.kind = ((patOccs P e.t).map (fun dp => dp.2.kind)).getLast? ∧
      e.c = (patOccs P e.t).length ∧
      e.df = (((patOccs P e.t).map (fun dp => dp.1)).dedup).length := by
  obtain ⟨kv, hkv, hhead, rfl⟩ := aggregate_patterns_mem he
  rw [show (mkPatternEntry (patState P) kv).t = kv.1 from rfl]
  have countEq : (patState P).count =
      ((patStream P).map (fun dp => dp.2.t)).foldl alBump [] := by
    rw [patState_eq_stream, patFold_count]
    rfl
  have kindEq : (patState P).kind =
      ((patStream P).map (fun dp => (dp.2.t, dp.2.kind))).foldl
        (fun m kv => alPut m kv.1 kv.2) [] := by
    rw [patState_eq_stream, patFold_kind]
    rfl
  have docsEq : (patState P).docs =
      ((patStream P).map (fun dp => (dp.2.t, dp.1))).foldl
        (fun m kv => alAddToSet m kv.1 kv.2) [] := by
    rw [patState_eq_stream, patFold_docs]
    rfl
  have hnd : (alKeys (patState P).count).Nodup := by
    rw [countEq]
    exact alKeys_foldl_alBump_nodup _ (by simp)
  have hget : alGet (patState P).count kv.1 = some kv.2 := alGet_of_mem hnd hkv
  have hkey : kv.1 ∈ alKeys (patState P).count := by
    unfold alKeys
    exact List.mem_map_of_mem Prod.fst hkv
  have hoccs : patOccs P kv.1 ≠ [] := by
    rw [countEq] at hkey
    rcases (mem_alKeys_foldl_alBump _ _ _).mp hkey with h | h
    · simp at h
    · obtain ⟨dp, hdp, hdpt⟩ := List.mem_map.mp h
      intro hnil
      have : dp ∈ patOccs P kv.1 := by
        unfold patOccs
        rw [List.mem_filter]
        exact ⟨hdp, by simp [hdpt]⟩
      rw [hnil] at this
      simp at this
  refine ⟨?_, ?_, ?_⟩
  · -- kind = last occurrence's kind
    show some (alGetD (patState P).kind kv.1 "") = _
    have hput := alGet_foldl_alPut
      ((patStream P).map (fun dp => (dp.2.t, dp.2.kind))) [] kv.1
    rw [← kindEq, alGet_nil, Option.or_none] at hput
    have hfil : ((patStream P).map (fun dp => (dp.2.t, dp.2.kind))).filter
        (fun kv' => decide (kv'.1 = kv.1)) =
        (patOccs P kv.1).map (fun dp => (dp.2.t, dp.2.kind)) := by
      rw [List.filter_map]
      rfl
    rw [hfil, List.map_map] at hput
    have hput2 : alGet (patState P).kind kv.1 =
        ((patOccs P kv.1).map (fun dp => dp.2.kind)).getLast? := hput
    have hlast : ((patOccs P kv.1).map (fun dp => dp.2.kind)).getLast?.isSome := by
      rw [List.getLast?_isSome]
      simp [hoccs]
    obtain ⟨v, hv⟩ := Option.isSome_iff_exists.mp hlast
    have hput' : alGet (patState P).kind kv.1 = some v := by
      rw [hput2]
      exact hv
    rw [show alGetD (patState P).kind kv.1 "" = v by
      unfold alGetD; rw [hput']; rfl, hv]
  · -- count = number of occurrences
    show kv.2 = (patOccs P kv.1).length
    have h1 : alGetD (patState P).count kv.1 0 = kv.2 := by
      unfold alGetD
      rw [hget]
      rfl
    rw [countEq] at h1
    rw [alGetD_foldl_alBump] at h1
    rw [count_map_eq_countP, List.countP_eq_length_filter] at h1
    simp only [alGetD_nil, Nat.zero_add] at h1
    rw [← h1]
    rfl
  · -- df = number of distinct documents
    show (alGetD (patState P).docs kv.1 []).length = _
    have hmem : ∀ x, x ∈ alGetD (patState P).docs kv.1 [] ↔
        x ∈ (patOccs P kv.1).map (fun dp => dp.1) := by
      intro x
      rw [docsEq, mem_alGetD_foldl_alAddToSet]
      simp only [alGetD_nil, List.not_mem_nil, false_or]
      constructor
      · intro h
        obtain ⟨dp, hdp, hdpe⟩ := List.mem_map.mp h
        obtain ⟨h1, h2⟩ := Prod.mk.injEq .. ▸ hdpe
        exact List.mem_map.mpr ⟨dp, by
          unfold patOccs
          rw [List.mem_filter]
          exact ⟨hdp, by simp [h1]⟩, h2⟩
      · intro h
        obtain ⟨dp, hdp, hdpe⟩ := List.mem_map.mp h
        unfold patOccs at hdp
        rw [List.mem_filter] at hdp
        apply List.mem_map.mpr
        refine ⟨dp, hdp.1, ?_⟩
        have : dp.2.t = kv.1 := by simpa using hdp.2
        rw [this, hdpe]
    have hnodup : (alGetD (patState P).docs kv.1 []).Nodup := by
      rw [docsEq]
      exact nodup_alGetD_foldl_alAddToSet _ _ (by simp) kv.1
    have hfin : (alGetD (patState P).docs kv.1 []).toFinset =
        ((patOccs P kv.1).map (fun dp => dp.1)).toFinset := by
      apply Finset.ext
      intro x
      rw [List.mem_toFinset, List.mem_toFinset]
      exact hmem x
    rw [← List.toFinset_card_of_nodup hnodup, hfin]
    rfl

/-- Two occurrences of the same key with different kinds: the code keeps the
kind of the LAST one. -/
def c8patterns : List (String × List PatternOcc) :=
  [("d1", [⟨"zrun fast", "VO", ""⟩, ⟨"zrun fast", "phrasal", ""⟩])]

theorem c8patterns_output :
    aggregate_patterns c8patterns = [⟨"zrun fast", "phrasal", 2, 1, []⟩] := by
  show ((((patState c8patterns).count.mergeSort patCountLe).take 1000).filterMap _) = _
  rw [show (patState c8patterns).count = [("zrun fast", 2)] from by decide,
    List.mergeSort_of_sorted (by simp)]
  decide

/-- C8 counterexample: with two same-key occurrences of kinds "VO" then
"phrasal", the emitted entry has kind "phrasal" (the last occurrence), not the
claimed "VO" (the first). -/
theorem c8_counterexample :
    aggregate_patterns c8patterns = [⟨"zrun fast", "phrasal", 2, 1, []⟩] ∧
      ("phrasal" : String) ≠ "VO" :=
  ⟨c8patterns_output, by decide⟩

/-- C8 witness: the amended theorem applied at the two-occurrence input. -/
theorem c8_witness :
    ∃ e ∈ aggregate_patterns c8patterns,
      some e.kind = ((patOccs c8patterns e.t).map (fun dp => dp.2.kind)).getLast? ∧
        e.c = (patOccs c8patterns e.t).length := by
  have he : (⟨"zrun fast", "phrasal", 2, 1, []⟩ : PatternEntry) ∈
      aggregate_patterns c8patterns := by
    rw [c8patterns_output]
    simp
  exact ⟨_, he, (c8_pattern_merge c8patterns _ he).1,
    (c8_pattern_merge c8patterns _ he).2.1⟩

/-! ## C7: the pattern head filter, ranking and cap -/

theorem filterMap_if_eq_map_filter {α β : Type} (p : α → Bool) (f : α → β)
    (l : List α) :
    l.filterMap (fun a => if p a then none else some (f a)) =
      (l.filter (fun a => !p a)).map f := by
  induction l with
  | nil => rfl
  | cons a l ih =>
    rw [List.filterMap_cons, List.filter_cons]
    by_cases h : p a
    · simp [h, ih]
    · simp [h, ih]

/-- C7 (amended): every aggregated pattern entry has a non-common head word,
the output is sorted by count descending, and it holds at most 1000 entries.
(The head filter runs AFTER the top-1000 truncation, so a non-common-head key
outside the 1000 most common keys can be absent; see the counterexample.) -/
theorem c7_pattern_head_filter (P : List (String × List PatternOcc)) :
    (∀ e ∈ aggregate_patterns P, head_lemma_is_common e.t = false) ∧
      List.Pairwise (fun a b => b.c ≤ a.c) (aggregate_patterns P) ∧
      (aggregate_patterns P).length ≤ 1000 := by
  have hform : aggregate_patterns P =
      ((((patState P).count.mergeSort patCountLe).take 1000).filter
        (fun kv => !head_lemma_is_common kv.1)).map
          (mkPatternEntry (patState P)) := by
    show ((((patState P).count.mergeSort patCountLe).take 1000).filterMap _) = _
    rw [filterMap_if_eq_map_filter]
  refine ⟨?_, ?_, ?_⟩
  · intro e he
    obtain ⟨kv, _, hhead, rfl⟩ := aggregate_patterns_mem he
    exact hhead
  · rw [hform]
    rw [List.pairwise_map]
    have hsorted : List.Pairwise (fun a b => patCountLe a b = true)
        ((patState P).count.mergeSort patCountLe) :=
      List.sorted_mergeSort patCountLe_trans patCountLe_total _
    have htake := hsorted.sublist (List.take_sublist 1000 _)
    have hfil : List.Pairwise (fun a b => patCountLe a b = true)
        ((((patState P).count.mergeSort patCountLe).take 1000).filter
          (fun kv => !head_lemma_is_common kv.1)) :=
      htake.sublist (List.filter_sublist _)
    exact hfil.imp (fun hab => by
      simpa [patCountLe, decide_eq_true_eq] using hab)
  · rw [hform, List.length_map]
    calc ((((patState P).count.mergeSort patCountLe).take 1000).filter
            (fun kv => !head_lemma_is_common kv.1)).length
        ≤ (((patState P).count.mergeSort patCountLe).take 1000).length :=
          List.length_filter_le _ _
      _ ≤ 1000 := by
          rw [List.length_take]
          exact inf_le_left

/-- A one-pattern input whose head word is not common. -/
def c7patterns : List (String × List PatternOcc) :=
  [("d1", [⟨"zcook dinner", "VO", ""⟩])]

theorem c7patterns_output :
    aggregate_patterns c7patterns = [⟨"zcook dinner", "VO", 1, 1, []⟩] := by
  show ((((patState c7patterns).count.mergeSort patCountLe).take 1000).filterMap _) = _
  rw [show (patState c7patterns).count = [("zcook dinner", 1)] from by decide,
    List.mergeSort_of_sorted (by simp)]
  decide

/-- C7 witness: the amended theorem applied at a concrete input. -/
theorem c7_witness :
    head_lemma_is_common
        (⟨"zcook dinner", "VO", 1, 1, []⟩ : PatternEntry).t = false ∧
      (aggregate_patterns c7patterns).length ≤ 1000 := by
  constructor
  · apply (c7_pattern_head_filter c7patterns).1
    rw [c7patterns_output]
    simp
  · exact (c7_pattern_head_filter c7patterns).2.2

/-- Nonempty all-'q' words "q", "qq", ... -/
def qword (i : ℕ) : String := ⟨List.replicate (i + 1) 'q'⟩

/-- Pattern keys "go q", "go qq", ... whose head word "go" is common. -/
def goKey (i : ℕ) : String := joinSp ["go", qword i]

def goOcc (i : ℕ) : PatternOcc := ⟨goKey i, "VO", ""⟩

/-- 1000 distinct common-head pattern keys (inserted first), then one
non-common-head key "zgo q": the top-1000 cut happens before the head filter,
so the output is empty. -/
def c7big : List (String × List PatternOcc) :=
  [("d1", (List.range 1000).map goOcc ++ [⟨"zgo q", "VO", ""⟩])]

theorem qword_plain (i : ℕ) : PlainWord (qword i) := by
  constructor
  · simp [qword]
  · intro c hc
    have : c = 'q' := List.eq_of_mem_replicate hc
    subst this
    decide

theorem go_plain : PlainWord "go" := by
  constructor
  · decide
  · decide

theorem split_goKey (i : ℕ) : pySplit (goKey i) = ["go", qword i] := by
  apply pySplit_joinSp
  intro w hw
  rcases List.mem_cons.mp hw with rfl | hw
  · exact go_plain
  · rcases List.mem_cons.mp hw with rfl | hw
    · exact qword_plain i
    · simp at hw

theorem goKey_inj : Function.Injective goKey := by
  intro i j h
  have hs := congrArg pySplit h
  rw [split_goKey, split_goKey] at hs
  have hq : qword i = qword j := by
    simpa using hs
  have := congrArg (fun s : String => s.data.length) hq
  simp [qword] at this
  exact this

theorem goKey_data (i : ℕ) :
    (goKey i).data = 'g' :: 'o' :: ' ' :: List.replicate (i + 1) 'q' := rfl

theorem goKey_ne_empty (i : ℕ) : goKey i ≠ "" := by
  intro h
  have : (goKey i).data = [] := congrArg String.data h
  rw [goKey_data] at this
  simp at this

theorem dropWhile_eq_self_of_head {p : Char → Bool} {l : List Char}
    (h : ∀ c, l.head? = some c → p c = false) : l.dropWhile p = l := by
  cases l with
  | nil => rfl
  | cons c cs => rw [List.dropWhile_cons, if_neg (by simp [h c rfl])]

theorem stripData_eq_self_of_ends {l : List Char}
    (h1 : ∀ c, l.head? = some c → pyWs c = false)
    (h2 : ∀ c, l.getLast? = some c → pyWs c = false) : stripData l = l := by
  unfold stripData
  rw [dropWhile_eq_self_of_head h1, dropWhile_eq_self_of_head (by
    intro c hc
    rw [List.head?_reverse] at hc
    exact h2 c hc), List.reverse_reverse]

theorem strip_goKey (i : ℕ) : pyStrip (goKey i) = goKey i := by
  have h1 : ∀ c, (goKey i).data.head? = some c → pyWs c = false := by
    intro c hc
    rw [goKey_data] at hc
    simp at hc
    subst hc
    decide
  have h2 : ∀ c, (goKey i).data.getLast? = some c → pyWs c = false := by
    intro c hc
    rw [goKey_data, List.replicate_succ',
      show ('g' :: 'o' :: ' ' :: (List.replicate i 'q' ++ ['q'])) =
        ('g' :: 'o' :: ' ' :: List.replicate i 'q') ++ ['q'] from by simp,
      List.getLast?_concat] at hc
    have : c = 'q' := by simpa using hc.symm
    subst this
    decide
  unfold pyStrip
  rw [stripData_eq_self_of_ends h1 h2, stringMk_data]

theorem head_goKey_common (i : ℕ) : head_lemma_is_common (goKey i) = true := by
  unfold head_lemma_is_common
  rw [if_neg (by
    push_neg
    exact ⟨goKey_ne_empty i, by rw [strip_goKey]; exact goKey_ne_empty i⟩)]
  rw [strip_goKey, split_goKey]
  rw [show (["go", qword i].headD "") = "go" from rfl]
  rw [show pyLower "go" = "go" from by decide]
  decide

theorem c7big_keys :
    (patStream c7big).map (fun dp => dp.2.t) =
      (List.range 1000).map goKey ++ ["zgo q"] := by
  unfold patStream c7big
  simp [List.map_map]
  intro a _
  rfl

theorem c7big_keys_nodup :
    ((List.range 1000).map goKey ++ ["zgo q"]).Nodup := by
  rw [List.nodup_append]
  refine ⟨(List.nodup_range 1000).map goKey_inj, List.nodup_singleton _, ?_⟩
  intro k hk
  obtain ⟨i, _, rfl⟩ := List.mem_map.mp hk
  simp only [List.mem_singleton]
  intro h
  have := congrArg String.data h
  rw [goKey_data] at this
  simp at this

theorem c7big_count :
    (patState c7big).count =
      ((List.range 1000).map goKey ++ ["zgo q"]).map (fun k => (k, 1)) := by
  rw [patState_eq_stream, patFold_count, c7big_keys,
    foldl_alBump_fresh _ _ (by intro k _; simp [patInit]) c7big_keys_nodup]
  rfl

theorem c7big_sorted :
    List.Pairwise (fun a b => patCountLe a b = true)
      (((List.range 1000).map goKey ++ ["zgo q"]).map (fun k => (k, 1))) := by
  apply List.pairwise_of_forall_mem_list
  intro a ha b hb
  obtain ⟨k1, _, rfl⟩ := List.mem_map.mp ha
  obtain ⟨k2, _, rfl⟩ := List.mem_map.mp hb
  rfl

/-- C7 counterexample: 1001 distinct keys, the first 1000 with a common head;
the non-common key "zgo q" has count 1 but the aggregated output is EMPTY,
refuting "the output is exactly the highest-count (up to) 1000 pattern keys
among those whose head word is not common". -/
theorem c7_counterexample :
    aggregate_patterns c7big = [] ∧ head_lemma_is_common "zgo q" = false ∧
      0 < alGetD (patState c7big).count "zgo q" 0 := by
  refine ⟨?_, by decide, ?_⟩
  · show ((((patState c7big).count.mergeSort patCountLe).take 1000).filterMap _) = _
    rw [c7big_count, List.mergeSort_of_sorted c7big_sorted, List.map_append,
      List.map_map]
    rw [List.take_left' (by simp :
      ((List.range 1000).map ((fun k => (k, (1 : ℕ))) ∘ goKey)).length = 1000)]
    rw [List.filterMap_eq_nil_iff]
    intro kv hkv
    obtain ⟨i, _, rfl⟩ := List.mem_map.mp hkv
    rw [if_pos]
    exact head_goKey_common i
  · rw [c7big_count]
    have hmem : (("zgo q", 1) : String × ℕ) ∈
        ((List.range 1000).map goKey ++ ["zgo q"]).map (fun k => (k, 1)) := by
      apply List.mem_map.mpr
      exact ⟨"zgo q", by simp, rfl⟩
    have hnd : (alKeys (((List.range 1000).map goKey ++ ["zgo q"]).map
        (fun k => (k, 1)))).Nodup := by
      have : alKeys (((List.range 1000).map goKey ++ ["zgo q"]).map
          (fun k => (k, 1))) = (List.range 1000).map goKey ++ ["zgo q"] := by
        unfold alKeys
        rw [List.map_map]
        simp
      rw [this]
      exact c7big_keys_nodup
    have := alGet_of_mem hnd hmem
    unfold alGetD
    rw [this]
    simp

/-! ## The learning-phrase pipeline, decomposed -/

/-- The (n-gram length, n-gram) observations of one document, in processing
order: n = 2..5, each n-gram tagged with its length. -/
def lpDocStream (dt : String × List Token) : List (ℕ × (String × String × String)) :=
  ((List.range' 2 4).map
    (fun n => (generate_ngrams dt.2 n dt.1).map (fun g => (n, g)))).flatten

/-- The full observation stream of `extract_learning_phrases`. -/
def lpStream (a : List (String × List Token)) : List (ℕ × (String × String × String)) :=
  (a.map lpDocStream).flatten

theorem lpDoc_eq_stream (st : LPState) (dt : String × List Token) :
    lpDoc st dt = (lpDocStream dt).foldl (fun st ng => lpStep ng.1 st ng.2) st := by
  unfold lpDoc lpDocStream
  generalize List.range' 2 4 = ns
  induction ns generalizing st with
  | nil => rfl
  | cons n ns ih =>
    rw [List.foldl_cons, List.map_cons, List.flatten_cons, List.foldl_append,
      List.foldl_map, ih]

theorem lpState_eq_stream (a : List (String × List Token)) :
    lpState a = (lpStream a).foldl (fun st ng => lpStep ng.1 st ng.2) lpInit := by
  unfold lpState lpStream
  suffices h : ∀ st, a.foldl lpDoc st =
      ((a.map lpDocStream).flatten).foldl (fun st ng => lpStep ng.1 st ng.2) st from
    h lpInit
  intro st
  induction a generalizing st with
  | nil => rfl
  | cons dt rest ih =>
    rw [List.foldl_cons, List.map_cons, List.flatten_cons, List.foldl_append,
      ← lpDoc_eq_stream, ih]

theorem lpFold_count (l : List (ℕ × (String × String × String))) (st : LPState) :
    (l.foldl (fun st ng => lpStep ng.1 st ng.2) st).count =
      (l.map (fun ng => ng.2.1)).foldl alBump st.count := by
  induction l generalizing st with
  | nil => rfl
  | cons ng rest ih =>
    rw [List.foldl_cons, ih, List.map_cons, List.foldl_cons]
    rfl

theorem lpFold_docs (l : List (ℕ × (String × String × String))) (st : LPState) :
    (l.foldl (fun st ng => lpStep ng.1 st ng.2) st).docs =
      (l.map (fun ng => (ng.2.1, ng.2.2.1))).foldl
        (fun m kv => alAddToSet m kv.1 kv.2) st.docs := by
  induction l generalizing st with
  | nil => rfl
  | cons ng rest ih =>
    rw [List.foldl_cons, ih, List.map_cons, List.foldl_cons]
    rfl

theorem lpCount_eq (a : List (String × List Token)) :
    (lpState a).count = ((lpStream a).map (fun ng => ng.2.1)).foldl alBump [] := by
  rw [lpState_eq_stream, lpFold_count]
  rfl

theorem lpDocs_eq (a : List (String × List Token)) :
    (lpState a).docs = ((lpStream a).map (fun ng => (ng.2.1, ng.2.2.1))).foldl
      (fun m kv => alAddToSet m kv.1 kv.2) [] := by
  rw [lpState_eq_stream, lpFold_docs]
  rfl

theorem lpCount_keys_nodup (a : List (String × List Token)) :
    (alKeys (lpState a).count).Nodup := by
  rw [lpCount_eq]
  exact alKeys_foldl_alBump_nodup _ (by simp)

theorem lpCount_val (a : List (String × List Token)) (p : String) :
    alGetD ((lpState a).count) p 0 = ((lpStream a).map (fun ng => ng.2.1)).count p := by
  rw [lpCount_eq, alGetD_foldl_alBump]
  simp

theorem lpDocs_mem (a : List (String × List Token)) (p x : String) :
    (x ∈ alGetD (lpState a).docs p [] ↔
      (p, x) ∈ (lpStream a).map (fun ng => (ng.2.1, ng.2.2.1))) := by
  rw [lpDocs_eq, mem_alGetD_foldl_alAddToSet]
  simp

/-! ## C1: the qualification filter of the collocation miner -/

/-- The claim's qualification predicate for a candidate phrase: present among
the harvested n-grams, contains a word outside the common set, and meets the
corpus-size-dependent count and document-frequency thresholds. -/
def lpQual (a : List (String × List Token)) (total_docs : ℕ) (p : String) : Prop :=
  p ∈ alKeys (lpState a).count ∧
    phrase_has_distinctive_word p = true ∧
    lpMinCount total_docs ≤ alGetD (lpState a).count p 0 ∧
    lpMinDocFreq total_docs ≤ (alGetD (lpState a).docs p []).length

/-- "The phrase is emitted": some output item carries it as its `t` field. -/
def lpEmits (a : List (String × List Token)) (total_docs : ℕ) (p : String) : Prop :=
  ∃ e ∈ extract_learning_phrases a total_docs, e.t = p

/-- C1 (amended): an emitted phrase always qualifies (distinctive + both
thresholds); conversely, every qualifying candidate is emitted PROVIDED at
most 1000 candidates qualify — the output is truncated to the top 1000 by
(PMI, score), so qualifying phrases can be dropped past the cap. -/
theorem c1_learning_phrase_filter (a : List (String × List Token))
    (total_docs : ℕ) (p : String) :
    (lpEmits a total_docs p → lpQual a total_docs p) ∧
      ((lpQualified a total_docs).length ≤ 1000 →
        lpQual a total_docs p → lpEmits a total_docs p) := by
  have hout : extract_learning_phrases a total_docs =
      (((lpQualified a total_docs).map
        (mkLPhrase (lpState a) (unigram_total a).1 (unigram_total a).2)).mergeSort
          lpLe).take 1000 := rfl
  constructor
  · rintro ⟨e, he, rfl⟩
    rw [hout] at he
    obtain ⟨kv, hkv, rfl⟩ := List.mem_map.mp (mem_of_mem_mergeSort_take he)
    rw [show (mkLPhrase (lpState a) (unigram_total a).1
      (unigram_total a).2 kv).t = kv.1 from rfl]
    unfold lpQualified at hkv
    obtain ⟨hmem, hkeep⟩ := List.mem_filter.mp hkv
    unfold lpKeep at hkeep
    simp only [Bool.and_eq_true, Bool.not_eq_true', decide_eq_false_iff_not,
      not_or, not_lt] at hkeep
    have hval : alGetD (lpState a).count kv.1 0 = kv.2 := by
      unfold alGetD
      rw [alGet_of_mem (lpCount_keys_nodup a) hmem]
      rfl
    refine ⟨?_, hkeep.2, ?_, hkeep.1.2⟩
    · unfold alKeys
      exact List.mem_map_of_mem Prod.fst hmem
    · rw [hval]
      exact hkeep.1.1
  · intro hlen hqual
    obtain ⟨hkey, hdist, hcount, hdf⟩ := hqual
    obtain ⟨c, hc⟩ : ∃ c, alGet (lpState a).count p = some c := by
      rcases ho : alGet (lpState a).count p with _ | c
      · exact absurd ((alGet_eq_none_iff _ _).mp ho) (by simpa using hkey)
      · exact ⟨c, rfl⟩
    have hval : alGetD (lpState a).count p 0 = c := by
      unfold alGetD
      rw [hc]
      rfl
    have hmem : (p, c) ∈ (lpState a).count := mem_of_alGet hc
    have hkeep : lpKeep (lpState a) total_docs (p, c) = true := by
      unfold lpKeep
      simp only [Bool.and_eq_true, Bool.not_eq_true', decide_eq_false_iff_not,
        not_or, not_lt]
      refine ⟨⟨?_, hdf⟩, hdist⟩
      rw [← hval]
      exact hcount
    have hq : (p, c) ∈ lpQualified a total_docs := by
      unfold lpQualified
      exact List.mem_filter.mpr ⟨hmem, hkeep⟩
    refine ⟨mkLPhrase (lpState a) (unigram_total a).1 (unigram_total a).2 (p, c),
      ?_, rfl⟩
    rw [hout]
    apply mem_mergeSort_take_of_len
    · rw [List.length_map]
      exact hlen
    · exact List.mem_map_of_mem _ hq

def xTok : Token := ⟨"zx", "zx", "zx", "NOUN", false⟩
def yTok : Token := ⟨"zy", "zy", "zy", "NOUN", false⟩

/-- A two-document corpus in which "zx zy" occurs exactly 5 times across
exactly 2 documents, and "zy zx" only 3 times. -/
def c1mini : List (String × List Token) :=
  [("d1", [xTok, yTok, xTok, yTok, xTok, yTok]), ("d2", [xTok, yTok, xTok, yTok])]

/-- C1 witness: in the two-document corpus, the phrase at exactly the
(count 5, document frequency 2) threshold is emitted, and a phrase below the
count threshold is not. -/
theorem c1_witness : lpEmits c1mini 2 "zx zy" ∧ ¬ lpEmits c1mini 2 "zy zx" := by
  constructor
  · exact (c1_learning_phrase_filter c1mini 2 "zx zy").2 (by decide)
      (by unfold lpQual; decide)
  · intro hem
    exact (by unfold lpQual; decide : ¬ lpQual c1mini 2 "zy zx")
      ((c1_learning_phrase_filter c1mini 2 "zy zx").1 hem)

/-! ## C1 counterexample corpus: a doubled 253-word document -/

theorem drop_range_eq {i N : ℕ} (h : i ≤ N) :
    (List.range N).drop i = List.range' i (N - i) := by
  have hsplit : List.range' 0 i ++ List.range' i (N - i) = List.range' 0 N := by
    have h0 := List.range'_append_1 0 i (N - i)
    rw [Nat.zero_add] at h0
    rw [h0]
    congr 1
    omega
  calc (List.range N).drop i
      = (List.range' 0 i ++ List.range' i (N - i)).drop i := by
        rw [List.range_eq_range', hsplit]
    _ = List.range' i (N - i) := List.drop_left' (List.length_range' 0 1 i)

theorem take_range'_eq {i n m : ℕ} (h : n ≤ m) :
    (List.range' i m).take n = List.range' i n := by
  have hsplit : List.range' i n ++ List.range' (i + n) (m - n) = List.range' i m := by
    rw [List.range'_append_1]
    congr 1
    omega
  rw [← hsplit, List.take_left' (List.length_range' ..)]

def c1idx : List ℕ := List.range 253 ++ List.range 253

def c1doc : List Token := c1idx.map zqTok

def c1corpus : List (String × List Token) := [("d1", c1doc)]

/-- The phrase of the window of length n at position j. -/
def wPhrase (n j : ℕ) : String := joinSp (((c1idx.drop j).take n).map wordZQ)

/-- The surface of the window of length n at position j (all texts empty). -/
def wSurf (n j : ℕ) : String :=
  joinSp (((c1idx.drop j).take n).map (fun _ => ""))

/-- The canonical phrase made of the words at indices i, ..., i + n - 1. -/
def phraseAt (n i : ℕ) : String := joinSp ((List.range' i n).map wordZQ)

theorem c1doc_length : c1doc.length = 506 := by
  unfold c1doc c1idx
  simp

theorem c1idx_window {n i : ℕ} (hi : i + n ≤ 253) :
    (c1idx.drop i).take n = List.range' i n := by
  unfold c1idx
  rw [List.drop_append_eq_append_drop, drop_range_eq (show i ≤ 253 by omega),
    show i - (List.range 253).length = 0 from by simp; omega, List.drop_zero,
    List.take_append_eq_append_take,
    take_range'_eq (show n ≤ 253 - i by omega), List.length_range',
    show n - (253 - i) = 0 from by omega, List.take_zero, List.append_nil]

theorem c1idx_window' {n i : ℕ} (hi : i + n ≤ 253) :
    (c1idx.drop (i + 253)).take n = List.range' i n := by
  unfold c1idx
  rw [List.drop_append_eq_append_drop,
    List.drop_eq_nil_of_le (show (List.range 253).length ≤ i + 253 by simp),
    List.nil_append,
    show i + 253 - (List.range 253).length = i from by simp,
    drop_range_eq (show i ≤ 253 by omega),
    take_range'_eq (show n ≤ 253 - i by omega)]

theorem wPhrase_eq {n i : ℕ} (hi : i + n ≤ 253) : wPhrase n i = phraseAt n i := by
  unfold wPhrase phraseAt
  rw [c1idx_window hi]

theorem wPhrase_eq' {n i : ℕ} (hi : i + n ≤ 253) :
    wPhrase n (i + 253) = phraseAt n i := by
  unfold wPhrase phraseAt
  rw [c1idx_window' hi]

theorem filterMap_eq_map_of_some {α β : Type} (f : α → Option β) (g : α → β)
    (l : List α) (h : ∀ x ∈ l, f x = some (g x)) : l.filterMap f = l.map g := by
  induction l with
  | nil => rfl
  | cons a l ih =>
    rw [List.filterMap_cons, h a (by simp), List.map_cons,
      ih (fun x hx => h x (by simp [hx]))]

theorem gen_c1 {n : ℕ} (hn : 2 ≤ n) :
    generate_ngrams c1doc n "d1" =
      (List.range (c1doc.length + 1 - n)).map
        (fun j => (wPhrase n j, "d1", wSurf n j)) := by
  unfold generate_ngrams
  apply filterMap_eq_map_of_some
  intro j hj
  have hj' : j + n ≤ c1doc.length := by
    have := List.mem_range.mp hj
    omega
  have hstops : ((c1doc.drop j).take n).filter (·.is_stop) = [] := by
    rw [List.filter_eq_nil_iff]
    intro t ht
    have htl : t ∈ c1doc :=
      ((List.take_sublist _ _).trans (List.drop_sublist _ _)).mem ht
    obtain ⟨i, _, rfl⟩ := List.mem_map.mp htl
    simp [zqTok]
  have hwlen : ((c1doc.drop j).take n).length = n := by
    rw [List.length_take, List.length_drop]
    omega
  have hcontent : ((c1doc.drop j).take n).any
      (fun t => decide (t.pos ∈ CONTENT_POS)) = true := by
    have hne : (c1doc.drop j).take n ≠ [] := by
      intro h
      rw [h] at hwlen
      simp at hwlen
      omega
    obtain ⟨t, ht⟩ := List.exists_mem_of_ne_nil _ hne
    apply List.any_eq_true.mpr
    refine ⟨t, ht, ?_⟩
    have htl : t ∈ c1doc :=
      ((List.take_sublist _ _).trans (List.drop_sublist _ _)).mem ht
    obtain ⟨i, _, rfl⟩ := List.mem_map.mp htl
    rw [show (zqTok i).pos = "NOUN" from rfl]
    decide
  have hwnorm : ((c1doc.drop j).take n).map (fun t => t.norm) =
      ((c1idx.drop j).take n).map wordZQ := by
    rw [show c1doc = c1idx.map zqTok from rfl, ← List.map_drop, ← List.map_take,
      List.map_map]
    rfl
  have hwtext : ((c1doc.drop j).take n).map (fun t => t.text) =
      ((c1idx.drop j).take n).map (fun _ => "") := by
    rw [show c1doc = c1idx.map zqTok from rfl, ← List.map_drop, ← List.map_take,
      List.map_map]
    rfl
  simp only [hstops, List.length_nil, hcontent, hwnorm, hwtext]
  rw [if_neg (show ¬ (5 * 0 > 3 * n) from by omega),
    if_neg (not_not_intro trivial)]
  rfl

def c1chunk (n : ℕ) : List String := (List.range (507 - n)).map (wPhrase n)

theorem keychunk (n : ℕ) (hn : 2 ≤ n) :
    ((generate_ngrams c1doc n "d1").map (fun g => (n, g))).map
      (fun ng : ℕ × (String × String × String) => ng.2.1) = c1chunk n := by
  rw [gen_c1 hn, c1doc_length, List.map_map, List.map_map]
  rfl

theorem c1stream_eq : lpStream c1corpus = lpDocStream ("d1", c1doc) := by
  unfold lpStream c1corpus
  simp

theorem c1docStream_eq :
    lpDocStream ("d1", c1doc) =
      (generate_ngrams c1doc 2 "d1").map (fun g => (2, g)) ++
        ((generate_ngrams c1doc 3 "d1").map (fun g => (3, g)) ++
          ((generate_ngrams c1doc 4 "d1").map (fun g => (4, g)) ++
            ((generate_ngrams c1doc 5 "d1").map (fun g => (5, g)) ++ []))) := by
  unfold lpDocStream
  rfl

theorem c1_keystream :
    (lpStream c1corpus).map (fun ng => ng.2.1) =
      c1chunk 2 ++ (c1chunk 3 ++ (c1chunk 4 ++ (c1chunk 5 ++ []))) := by
  rw [c1stream_eq, c1docStream_eq]
  simp only [List.map_append]
  rw [keychunk 2 (by omega), keychunk 3 (by omega), keychunk 4 (by omega),
    keychunk 5 (by omega)]
  rfl

theorem c1_count_ge {n i : ℕ} (hn : 2 ≤ n) (h5 : n ≤ 5) (hi : i + n ≤ 253) :
    2 ≤ alGetD (lpState c1corpus).count (phraseAt n i) 0 := by
  rw [lpCount_val, c1_keystream]
  have hchunk : 2 ≤ (c1chunk n).count (phraseAt n i) := by
    unfold c1chunk
    apply two_le_count_of_pair_sublist
    have hsub := (sublist_pair_range (show i < i + 253 from by omega)
      (show i + 253 < 507 - n from by omega)).map (wPhrase n)
    simp only [List.map_cons, List.map_nil] at hsub
    rw [wPhrase_eq hi, wPhrase_eq' hi] at hsub
    exact hsub
  simp only [List.count_append, List.count_nil]
  interval_cases n <;> omega

theorem gen_doc {tokens : List Token} {n : ℕ} {d : String} :
    ∀ g ∈ generate_ngrams tokens n d, g.2.1 = d := by
  intro g hg
  unfold generate_ngrams at hg
  obtain ⟨j, _, hj⟩ := List.mem_filterMap.mp hg
  simp only at hj
  split at hj
  · exact absurd hj (by simp)
  · split at hj
    · exact absurd hj (by simp)
    · have := Option.some.inj hj
      rw [← this]

theorem alKeys_of_getD_pos {l : List (String × ℕ)} {p : String}
    (h : 0 < alGetD l p 0) : p ∈ alKeys l := by
  by_contra hn
  have h0 : alGetD l p 0 = 0 := by
    unfold alGetD
    rw [(alGet_eq_none_iff l p).mpr hn]
    rfl
  rw [h0] at h
  exact absurd h (by omega)

theorem c1_df {p : String} (hp : 0 < alGetD (lpState c1corpus).count p 0) :
    1 ≤ (alGetD (lpState c1corpus).docs p []).length := by
  rw [lpCount_val] at hp
  have hpmem : p ∈ (lpStream c1corpus).map (fun ng => ng.2.1) :=
    List.count_pos_iff.mp hp
  obtain ⟨ng, hng, hngp⟩ := List.mem_map.mp hpmem
  have hdoc : ng.2.2.1 = "d1" := by
    rw [c1stream_eq] at hng
    unfold lpDocStream at hng
    obtain ⟨l, hl, hngl⟩ := List.mem_flatten.mp hng
    obtain ⟨n, _, rfl⟩ := List.mem_map.mp hl
    obtain ⟨g, hg, rfl⟩ := List.mem_map.mp hngl
    exact gen_doc g hg
  have hd : "d1" ∈ alGetD (lpState c1corpus).docs p [] := by
    rw [lpDocs_mem]
    apply List.mem_map.mpr
    refine ⟨ng, hng, ?_⟩
    rw [hngp, hdoc]
  have := List.length_pos.mpr (List.ne_nil_of_mem hd)
  omega

theorem wordZQ_plain (i : ℕ) : PlainWord (wordZQ i) := by
  constructor
  · simp [wordZQ]
  · intro c hc
    rcases wordZQ_chars c hc with rfl | rfl <;> decide

theorem phraseAt_split (n i : ℕ) :
    pySplit (phraseAt n i) = (List.range' i n).map wordZQ := by
  apply pySplit_joinSp
  intro w hw
  obtain ⟨k, _, rfl⟩ := List.mem_map.mp hw
  exact wordZQ_plain k

theorem joinSp_cons_data (w w' : String) (ws : List String) :
    (joinSp (w :: w' :: ws)).data = w.data ++ (' ' :: (joinSp (w' :: ws)).data) := by
  show (w ++ " " ++ joinSp (w' :: ws)).data = _
  rw [data_append, data_append, List.append_assoc]
  have hsp : (" " : String).data = [' '] := rfl
  rw [hsp, List.singleton_append]

theorem joinSp_mem_data {w : String} {ws : List String} (hw : w ∈ ws) {c : Char}
    (hc : c ∈ w.data) : c ∈ (joinSp ws).data := by
  induction ws with
  | nil => simp at hw
  | cons w' ws ih =>
    cases ws with
    | nil =>
      rcases List.mem_cons.mp hw with rfl | hw
      · exact hc
      · simp at hw
    | cons w'' ws' =>
      rw [joinSp_cons_data]
      rcases List.mem_cons.mp hw with rfl | hw
      · exact List.mem_append.mpr (Or.inl hc)
      · exact List.mem_append.mpr (Or.inr (List.mem_cons_of_mem _ (ih hw)))

theorem stripData_ne_nil {l : List Char} {c : Char} (hc : c ∈ l)
    (hw : pyWs c = false) : stripData l ≠ [] := by
  intro h
  unfold stripData at h
  have h2 : (l.dropWhile pyWs).reverse.dropWhile pyWs = [] :=
    List.reverse_eq_nil_iff.mp h
  have hall : ∀ x ∈ l.dropWhile pyWs, pyWs x = true := by
    intro x hx
    exact List.dropWhile_eq_nil_iff.mp h2 x (List.mem_reverse.mpr hx)
  have hws : ∀ x ∈ l, pyWs x = true := by
    intro x hx
    rw [← List.takeWhile_append_dropWhile pyWs l] at hx
    rcases List.mem_append.mp hx with h | h
    · exact List.mem_takeWhile_imp h
    · exact hall x h
  rw [hws c hc] at hw
  exact absurd hw (by simp)

theorem c1_distinct {n i : ℕ} (hn : 1 ≤ n) :
    phrase_has_distinctive_word (phraseAt n i) = true := by
  have hwords : pySplit (phraseAt n i) = (List.range' i n).map wordZQ :=
    phraseAt_split n i
  have hmemw : wordZQ i ∈ (List.range' i n).map wordZQ := by
    apply List.mem_map_of_mem
    rw [List.mem_range']
    exact ⟨0, by omega, by omega⟩
  have hz : 'z' ∈ (phraseAt n i).data := by
    apply joinSp_mem_data hmemw
    simp [wordZQ]
  unfold phrase_has_distinctive_word
  rw [if_neg ?_]
  · apply List.any_eq_true.mpr
    refine ⟨pyLower (pyStrip (wordZQ i)), ?_, ?_⟩
    · apply List.mem_map.mpr
      refine ⟨wordZQ i, ?_, rfl⟩
      apply List.mem_filter.mpr
      refine ⟨by rw [hwords]; exact hmemw, ?_⟩
      rw [pyStrip_wordZQ]
      simpa using wordZQ_ne_empty i
    · rw [pyStrip_wordZQ, pyLower_wordZQ]
      apply decide_eq_true
      intro hmem
      exact commonLemmas_no_z _ hmem rfl
  · push_neg
    constructor
    · intro h
      rw [h] at hz
      simp at hz
    · intro h
      have hne : stripData (phraseAt n i).data ≠ [] :=
        stripData_ne_nil hz (by decide)
      exact hne (congrArg String.data h)

theorem phraseAt_inj {n n' i i' : ℕ} (hn : 1 ≤ n) (hn' : 1 ≤ n')
    (h : phraseAt n i = phraseAt n' i') : n = n' ∧ i = i' := by
  have hs := congrArg pySplit h
  rw [phraseAt_split, phraseAt_split] at hs
  have hlen : n = n' := by
    have := congrArg List.length hs
    simpa using this
  subst hlen
  refine ⟨rfl, ?_⟩
  obtain ⟨m, rfl⟩ : ∃ m, n = m + 1 := ⟨n - 1, by omega⟩
  rw [List.range'_succ, List.range'_succ, List.map_cons, List.map_cons] at hs
  have hhd : wordZQ i = wordZQ i' := (List.cons.injEq _ _ _ _ ▸ hs).1
  exact wordZQ_inj hhd

def c1A (n : ℕ) : List String := (List.range (254 - n)).map (fun i => phraseAt n i)

def c1phrases : List String := c1A 2 ++ (c1A 3 ++ (c1A 4 ++ c1A 5))

theorem c1A_nodup {n : ℕ} (hn : 1 ≤ n) : (c1A n).Nodup := by
  apply List.Nodup.map_on _ (List.nodup_range _)
  intro i _ j _ he
  exact (phraseAt_inj hn hn he).2

theorem c1A_disj {n m : ℕ} (hn : 1 ≤ n) (hm : 1 ≤ m) (hne : n ≠ m) :
    (c1A n).Disjoint (c1A m) := by
  intro p hp hq
  obtain ⟨i, _, rfl⟩ := List.mem_map.mp hp
  obtain ⟨j, _, he⟩ := List.mem_map.mp hq
  exact hne ((phraseAt_inj hm hn he).1).symm

theorem c1phrases_nodup : c1phrases.Nodup := by
  unfold c1phrases
  rw [List.nodup_append, List.nodup_append, List.nodup_append]
  refine ⟨c1A_nodup (by omega), ⟨c1A_nodup (by omega),
    ⟨c1A_nodup (by omega), c1A_nodup (by omega),
      c1A_disj (by omega) (by omega) (by omega)⟩, ?_⟩, ?_⟩
  · rw [List.disjoint_append_right]
    exact ⟨c1A_disj (by omega) (by omega) (by omega),
      c1A_disj (by omega) (by omega) (by omega)⟩
  · rw [List.disjoint_append_right, List.disjoint_append_right]
    exact ⟨c1A_disj (by omega) (by omega) (by omega),
      c1A_disj (by omega) (by omega) (by omega),
      c1A_disj (by omega) (by omega) (by omega)⟩

theorem c1phrases_length : c1phrases.length = 1002 := by
  simp [c1phrases, c1A]

theorem c1_qual {p : String} (hp : p ∈ c1phrases) : lpQual c1corpus 1 p := by
  have hdec : ∃ n i, 2 ≤ n ∧ n ≤ 5 ∧ i + n ≤ 253 ∧ p = phraseAt n i := by
    unfold c1phrases c1A at hp
    rcases List.mem_append.mp hp with h | h
    · obtain ⟨i, hi, rfl⟩ := List.mem_map.mp h
      rw [List.mem_range] at hi
      exact ⟨2, i, by omega, by omega, by omega, rfl⟩
    rcases List.mem_append.mp h with h | h
    · obtain ⟨i, hi, rfl⟩ := List.mem_map.mp h
      rw [List.mem_range] at hi
      exact ⟨3, i, by omega, by omega, by omega, rfl⟩
    rcases List.mem_append.mp h with h | h
    · obtain ⟨i, hi, rfl⟩ := List.mem_map.mp h
      rw [List.mem_range] at hi
      exact ⟨4, i, by omega, by omega, by omega, rfl⟩
    · obtain ⟨i, hi, rfl⟩ := List.mem_map.mp h
      rw [List.mem_range] at hi
      exact ⟨5, i, by omega, by omega, by omega, rfl⟩
  obtain ⟨n, i, hn, h5, hi, rfl⟩ := hdec
  have hcount := c1_count_ge hn h5 hi
  refine ⟨alKeys_of_getD_pos (by omega), c1_distinct (by omega), ?_, ?_⟩
  · rw [show lpMinCount 1 = 2 from rfl]
    exact hcount
  · rw [show lpMinDocFreq 1 = 1 from rfl]
    exact c1_df (by omega)

/-- C1 counterexample: in the single-document corpus built by repeating a
253-word document twice, 1002 distinct phrases satisfy the qualification
predicate (each interior n-gram, n = 2..5, occurs at least twice), yet the
output is capped at 1000 items — so "qualifies" cannot be equivalent to
"is emitted" as the claim states. -/
theorem c1_counterexample :
    ¬ (∀ p, lpEmits c1corpus 1 p ↔ lpQual c1corpus 1 p) := by
  intro hiff
  have hsub : c1phrases ⊆ (extract_learning_phrases c1corpus 1).map
      (fun e => e.t) := by
    intro p hp
    obtain ⟨e, he, het⟩ := (hiff p).mpr (c1_qual hp)
    exact List.mem_map.mpr ⟨e, he, het⟩
  have hle := (c1phrases_nodup.subperm hsub).length_le
  rw [c1phrases_length, List.length_map] at hle
  have hcap : (extract_learning_phrases c1corpus 1).length ≤ 1000 := by
    rw [show extract_learning_phrases c1corpus 1 =
      (((lpQualified c1corpus 1).map (mkLPhrase (lpState c1corpus)
        (unigram_total c1corpus).1 (unigram_total c1corpus).2)).mergeSort
          lpLe).take 1000 from rfl, List.length_take]
    exact min_le_left _ _
  omega
